import Mathlib

/-!
Verification development for the threshold-aware RG-evolution driver in
`flavio/physics/running/running.py`.

Scales are modelled as rationals (`ℚ`); the `+∞` entry of the threshold
table (regime 7) is modelled with `WithTop ℚ`.  The external ODE solver
(`odeint`, wrapped by `rg_evolve`) is opaque to the driver, so it is
modelled as an abstract segment integrator that may fail
(`V → ℕ → EScale → EScale → Except E V`, taking the initial vector, the
flavor regime selecting the right-hand side, and the two scales).  The
driver is embedded together with a trace of the segment-integrator
invocations it performs, so that claims about which segments are run can
be stated and proved.
-/

set_option autoImplicit false

/-- Extended scales: rationals together with the `+∞` used as the upper
threshold of regime 7 (`thresholds[7] = np.inf`). -/
abbrev EScale := WithTop ℚ

/-- Abstract segment integrator: models `rg_evolve(initial, derivative_nf(nf),
scale_in, scale_stop)`, i.e. the call to the external ODE solver with the
right-hand side selected for regime `nf`.  It may fail with an error `E`
(solver failure), which the driver must propagate. -/
abbrev Integ (V E : Type) := V → ℕ → EScale → EScale → Except E V

/-- Threshold table built at the top of `_rg_evolve_sm`:
`{3: 0.1, 4: mc, 5: mb, 6: mt, 7: np.inf}`. -/
def thresholds (mc mb mt : ℚ) : ℕ → EScale
  | 3 => ((1/10 : ℚ) : EScale)
  | 4 => (mc : EScale)
  | 5 => (mb : EScale)
  | 6 => (mt : EScale)
  | 7 => ⊤
  | _ => 0

/-- Record of one segment-integrator invocation: the regime (hence the
right-hand side used), the start and stop scales, and the initial vector
passed in. -/
structure Seg (V : Type) where
  nf : ℕ
  start : EScale
  stop : EScale
  input : V
  deriving DecidableEq, Repr

/-- Outcome of the body of `_rg_evolve_sm` after the direction dispatch:
either a `return sol` from inside a loop iteration (terminal condition
hit), or the fall-through `return sol` after the loops (where `sol` is
`none` when the local variable was never assigned, a `NameError` in
Python), or a propagated integration error. -/
inductive RunOut (V E : Type) where
  | loopReturn (v : V)
  | fallback (sol : Option V)
  | err (e : E)
  deriving DecidableEq, Repr

/-- Down-direction loop of `_rg_evolve_sm` (`for nf in (6,5,4,3)`,
entered when `scale_in > scale_out`): skip regime `nf` when
`scale_in <= thresholds[nf]`; otherwise integrate from the running scale
to `scale_stop = max(thresholds[nf], scale_out)`; return the solution if
`scale_stop == scale_out`, else carry it forward with the running scale
set to `thresholds[nf]`.  The extra arguments accumulate the invocation
trace and the last assigned `sol`. -/
def downRun {V E : Type} (integ : Integ V E) (thr : ℕ → EScale)
    (scale_in scale_out : EScale) :
    List ℕ → V → EScale → List (Seg V) → Option V → RunOut V E × List (Seg V)
  | [], _, _, tr, sol => (.fallback sol, tr)
  | nf :: rest, initial_nf, scale_in_nf, tr, sol =>
    if scale_in ≤ thr nf then
      downRun integ thr scale_in scale_out rest initial_nf scale_in_nf tr sol
    else
      let scale_stop := max (thr nf) scale_out
      let seg : Seg V := ⟨nf, scale_in_nf, scale_stop, initial_nf⟩
      match integ initial_nf nf scale_in_nf scale_stop with
      | .error e => (.err e, tr ++ [seg])
      | .ok s =>
        if scale_stop = scale_out then (.loopReturn s, tr ++ [seg])
        else downRun integ thr scale_in scale_out rest s (thr nf) (tr ++ [seg]) (some s)

/-- Up-direction loop of `_rg_evolve_sm` (`for nf in (3,4,5,6)`, entered
when `scale_in < scale_out`): skip regime `nf` when `nf < 6` and
`scale_in >= thresholds[nf+1]`; otherwise integrate from the running
scale to `scale_stop = min(thresholds[nf+1], scale_out)`; return the
solution if `scale_stop == scale_out`, else carry it forward with the
running scale set to `thresholds[nf]` (exactly as in the source: note
`thresholds[nf]`, not `thresholds[nf+1]`). -/
def upRun {V E : Type} (integ : Integ V E) (thr : ℕ → EScale)
    (scale_in scale_out : EScale) :
    List ℕ → V → EScale → List (Seg V) → Option V → RunOut V E × List (Seg V)
  | [], _, _, tr, sol => (.fallback sol, tr)
  | nf :: rest, initial_nf, scale_in_nf, tr, sol =>
    if nf < 6 ∧ thr (nf+1) ≤ scale_in then
      upRun integ thr scale_in scale_out rest initial_nf scale_in_nf tr sol
    else
      let scale_stop := min (thr (nf+1)) scale_out
      let seg : Seg V := ⟨nf, scale_in_nf, scale_stop, initial_nf⟩
      match integ initial_nf nf scale_in_nf scale_stop with
      | .error e => (.err e, tr ++ [seg])
      | .ok s =>
        if scale_stop = scale_out then (.loopReturn s, tr ++ [seg])
        else upRun integ thr scale_in scale_out rest s (thr nf) (tr ++ [seg]) (some s)

/-- Body of `_rg_evolve_sm` (the `lru_cache`-decorated driver): build the
threshold table, dispatch on the direction, and fall through to
`return sol` when neither loop returns (with `sol` unassigned when both
loops were skipped entirely, e.g. for `scale_in == scale_out`). -/
def _rg_evolve_sm {V E : Type} (integ : Integ V E) (initial_condition : V)
    (mc mb mt : ℚ) (scale_in scale_out : ℚ) : RunOut V E × List (Seg V) :=
  let thr := thresholds mc mb mt
  if (scale_out : EScale) < (scale_in : EScale) then
    downRun integ thr (scale_in : EScale) (scale_out : EScale) [6, 5, 4, 3]
      initial_condition (scale_in : EScale) [] none
  else if (scale_in : EScale) < (scale_out : EScale) then
    upRun integ thr (scale_in : EScale) (scale_out : EScale) [3, 4, 5, 6]
      initial_condition (scale_in : EScale) [] none
  else (.fallback none, [])

/-- Observable outcome of the public wrapper `rg_evolve_sm`: a returned
vector, the `ValueError` raised for `scale_out < 0.1` (the DomainError of
the design), the `NameError` of the unassigned fall-through, or a
propagated integration error. -/
inductive EvOut (V E : Type) where
  | value (v : V)
  | domainError
  | nameError
  | integError (e : E)
  deriving DecidableEq, Repr

/-- Collapse a driver outcome into the wrapper-level observable outcome. -/
def RunOut.toEv {V E : Type} : RunOut V E → EvOut V E
  | .loopReturn v => .value v
  | .fallback (some v) => .value v
  | .fallback none => .nameError
  | .err e => .integError e

/-- Quark-mass entries of the parameter dictionary used by the wrapper:
`par[('mass','c')]`, `par[('mass','b')]`, `par[('mass','t')]`. -/
structure Par where
  mc : ℚ
  mb : ℚ
  mt : ℚ
  deriving DecidableEq, Repr

/-- Public wrapper `rg_evolve_sm(initial_condition, par, derivative_nf,
scale_in, scale_out)`: identity short-circuit when the scales are equal,
`ValueError` when `scale_out < 0.1`, otherwise run the driver on the
masses extracted from `par`.  Returns the observable outcome together
with the trace of segment-integrator invocations. -/
def rg_evolve_sm {V E : Type} (integ : Integ V E) (initial_condition : V)
    (par : Par) (scale_in scale_out : ℚ) : EvOut V E × List (Seg V) :=
  if scale_in = scale_out then (.value initial_condition, [])
  else if scale_out < 1/10 then (.domainError, [])
  else
    let out := _rg_evolve_sm integ initial_condition par.mc par.mb par.mt
      scale_in scale_out
    (out.1.toEv, out.2)

/-- Well-formed thresholds: the fixed strange cutoff `0.1` and the quark
masses are strictly increasing, so the threshold table is strictly
monotone in the regime number. -/
def WellFormed (par : Par) : Prop :=
  1/10 < par.mc ∧ par.mc < par.mb ∧ par.mb < par.mt

/-- View an `Except` result of the segment integrator as a wrapper-level
outcome: a solver success is a returned value, a solver failure is a
propagated integration error. -/
def evOutOfExcept {V E : Type} : Except E V → EvOut V E
  | .ok v => .value v
  | .error e => .integError e

/-- Scale `s` lies strictly inside the regime-`k` band of the threshold
table, i.e. strictly between `thresholds[k]` and `thresholds[k+1]`. -/
def InBand (par : Par) (k : ℕ) (s : ℚ) : Prop :=
  thresholds par.mc par.mb par.mt k < (s : EScale) ∧
    (s : EScale) < thresholds par.mc par.mb par.mt (k + 1)

/-- The segment integrator never fails (the solver converges on every
requested segment). -/
def IntegTotal {V E : Type} (integ : Integ V E) : Prop :=
  ∀ x nf a b, ∃ y, integ x nf a b = Except.ok y

/-- Replay the segment-integrator call recorded by a trace entry. -/
def callOf {V E : Type} (integ : Integ V E) (s : Seg V) : Except E V :=
  integ s.input s.nf s.start s.stop

/-- Every segment-integrator call recorded in the trace succeeded. -/
def TraceOk {V E : Type} (integ : Integ V E) (l : List (Seg V)) : Prop :=
  ∀ s ∈ l, ∃ v, callOf integ s = Except.ok v

/-- Toy integrator used for concrete evaluations: always succeeds,
incrementing the (one-dimensional) state. -/
def okInteg : Integ ℚ Unit := fun x _ _ _ => Except.ok (x + 1)

/-- Toy integrator used for concrete evaluations: always fails. -/
def failInteg : Integ ℚ Unit := fun _ _ _ _ => Except.error ()

/-- Finite part of an extended scale (the infinite threshold is mapped to
`0`; it is only ever applied to finite scales). -/
def untopQ : EScale → ℚ := fun s => s.untop' 0

/-- Toy integrator realizing an exact translation flow, which satisfies
the two-segment composition law on the nose. -/
def shiftInteg : Integ ℚ Unit :=
  fun x _ a b => Except.ok (x + (untopQ b - untopQ a))

/-- Unfolding lemma for the down-direction loop: regime `nf` is skipped
when `scale_in <= thresholds[nf]`. -/
theorem downRun_skip {V E : Type} {integ : Integ V E} {thr : ℕ → EScale}
    {si so : EScale} {nf : ℕ} {rest : List ℕ} {x : V} {sc : EScale}
    {tr : List (Seg V)} {sol : Option V} (h : si ≤ thr nf) :
    downRun integ thr si so (nf :: rest) x sc tr sol =
      downRun integ thr si so rest x sc tr sol := by
  simp only [downRun, if_pos h]

/-- Unfolding lemma for the down-direction loop, terminal iteration: when
regime `nf` is not skipped and `max(thresholds[nf], scale_out) =
scale_out`, the loop integrates the final segment and returns from inside
the iteration. -/
theorem downRun_term {V E : Type} {integ : Integ V E} {thr : ℕ → EScale}
    {si so : EScale} {nf : ℕ} {rest : List ℕ} {x : V} {sc : EScale}
    {tr : List (Seg V)} {sol : Option V}
    (h1 : ¬ si ≤ thr nf) (h2 : max (thr nf) so = so) :
    downRun integ thr si so (nf :: rest) x sc tr sol =
      (match integ x nf sc so with
       | .error e => (.err e, tr ++ [⟨nf, sc, so, x⟩])
       | .ok s => (.loopReturn s, tr ++ [⟨nf, sc, so, x⟩])) := by
  simp only [downRun, if_neg h1, h2, eq_self_iff_true, if_true]

/-- Unfolding lemma for the down-direction loop, non-terminal iteration:
when regime `nf` is not skipped and `scale_out < thresholds[nf]`, the
loop integrates to `thresholds[nf]`, carries the result forward, and
continues with the running scale set to `thresholds[nf]`. -/
theorem downRun_step {V E : Type} {integ : Integ V E} {thr : ℕ → EScale}
    {si so : EScale} {nf : ℕ} {rest : List ℕ} {x : V} {sc : EScale}
    {tr : List (Seg V)} {sol : Option V}
    (h1 : ¬ si ≤ thr nf) (h2 : so < thr nf) :
    downRun integ thr si so (nf :: rest) x sc tr sol =
      (match integ x nf sc (thr nf) with
       | .error e => (.err e, tr ++ [⟨nf, sc, thr nf, x⟩])
       | .ok s =>
           downRun integ thr si so rest s (thr nf) (tr ++ [⟨nf, sc, thr nf, x⟩])
             (some s)) := by
  have hmax : max (thr nf) so = thr nf := max_eq_left h2.le
  simp only [downRun, if_neg h1, hmax, if_neg (ne_of_gt h2)]

/-- Unfolding lemma for the up-direction loop: regime `nf` is skipped
when `nf < 6` and `scale_in >= thresholds[nf+1]`. -/
theorem upRun_skip {V E : Type} {integ : Integ V E} {thr : ℕ → EScale}
    {si so : EScale} {nf : ℕ} {rest : List ℕ} {x : V} {sc : EScale}
    {tr : List (Seg V)} {sol : Option V} (h : nf < 6 ∧ thr (nf + 1) ≤ si) :
    upRun integ thr si so (nf :: rest) x sc tr sol =
      upRun integ thr si so rest x sc tr sol := by
  simp only [upRun, if_pos h]

/-- Unfolding lemma for the up-direction loop, terminal iteration: when
regime `nf` is not skipped and `min(thresholds[nf+1], scale_out) =
scale_out`, the loop integrates the final segment and returns from inside
the iteration. -/
theorem upRun_term {V E : Type} {integ : Integ V E} {thr : ℕ → EScale}
    {si so : EScale} {nf : ℕ} {rest : List ℕ} {x : V} {sc : EScale}
    {tr : List (Seg V)} {sol : Option V}
    (h1 : ¬ (nf < 6 ∧ thr (nf + 1) ≤ si)) (h2 : min (thr (nf + 1)) so = so) :
    upRun integ thr si so (nf :: rest) x sc tr sol =
      (match integ x nf sc so with
       | .error e => (.err e, tr ++ [⟨nf, sc, so, x⟩])
       | .ok s => (.loopReturn s, tr ++ [⟨nf, sc, so, x⟩])) := by
  simp only [upRun, if_neg h1, h2, eq_self_iff_true, if_true]

/-- Unfolding lemma for the up-direction loop, non-terminal iteration:
when regime `nf` is not skipped and `thresholds[nf+1] < scale_out`, the
loop integrates to `thresholds[nf+1]`, carries the result forward, and
continues with the running scale set to `thresholds[nf]` — exactly as in
the source, which re-seeds at `thresholds[nf]`, not at the
`thresholds[nf+1]` just reached. -/
theorem upRun_step {V E : Type} {integ : Integ V E} {thr : ℕ → EScale}
    {si so : EScale} {nf : ℕ} {rest : List ℕ} {x : V} {sc : EScale}
    {tr : List (Seg V)} {sol : Option V}
    (h1 : ¬ (nf < 6 ∧ thr (nf + 1) ≤ si)) (h2 : thr (nf + 1) < so) :
    upRun integ thr si so (nf :: rest) x sc tr sol =
      (match integ x nf sc (thr (nf + 1)) with
       | .error e => (.err e, tr ++ [⟨nf, sc, thr (nf + 1), x⟩])
       | .ok s =>
           upRun integ thr si so rest s (thr nf)
             (tr ++ [⟨nf, sc, thr (nf + 1), x⟩]) (some s)) := by
  have hmin : min (thr (nf + 1)) so = thr (nf + 1) := min_eq_left h2.le
  simp only [upRun, if_neg h1, hmin, if_neg (ne_of_lt h2)]

/-- Termination behavior of a driver loop outcome: it is never the
fall-through `return sol` after the loop, and when the segment integrator
never fails it is a `return` from inside a loop iteration. -/
def Terminates {V E : Type} (integ : Integ V E) (r : RunOut V E) : Prop :=
  (∀ sol, r ≠ RunOut.fallback sol) ∧
    (IntegTotal integ → ∃ v, r = RunOut.loopReturn v)

/-- The up-direction loop only ever appends to the accumulated trace. -/
theorem upRun_trace_extend {V E : Type} (integ : Integ V E) (thr : ℕ → EScale)
    (si so : EScale) (L : List ℕ) :
    ∀ (x : V) (sc : EScale) (tr : List (Seg V)) (sol : Option V),
      ∃ t, (upRun integ thr si so L x sc tr sol).2 = tr ++ t := by
  induction L with
  | nil => intro x sc tr sol; exact ⟨[], by simp [upRun]⟩
  | cons nf rest ih =>
    intro x sc tr sol
    by_cases hskip : nf < 6 ∧ thr (nf + 1) ≤ si
    · rw [upRun_skip hskip]; exact ih x sc tr sol
    · simp only [upRun, if_neg hskip]
      cases hI : integ x nf sc (min (thr (nf + 1)) so) with
      | error e => exact ⟨[⟨nf, sc, min (thr (nf + 1)) so, x⟩], rfl⟩
      | ok s =>
        dsimp only
        by_cases hterm : min (thr (nf + 1)) so = so
        · rw [if_pos hterm]
          exact ⟨[⟨nf, sc, min (thr (nf + 1)) so, x⟩], rfl⟩
        · rw [if_neg hterm]
          obtain ⟨t, ht⟩ :=
            ih s (thr nf) (tr ++ [⟨nf, sc, min (thr (nf + 1)) so, x⟩]) (some s)
          exact ⟨[⟨nf, sc, min (thr (nf + 1)) so, x⟩] ++ t,
            by rw [ht, List.append_assoc]⟩

/-- Suffix lemma for the down-direction loop: on the final suffix `[3]`,
if regime 3 is not skipped and its stop scale is `scale_out`, the loop
returns from inside the iteration. -/
theorem downWill3 {V E : Type} (integ : Integ V E) (thr : ℕ → EScale) (si so : EScale)
    (h1 : ¬ si ≤ thr 3) (h2 : max (thr 3) so = so) :
    ∀ (x : V) (sc : EScale) (tr : List (Seg V)) (sol : Option V),
      Terminates integ (downRun integ thr si so [3] x sc tr sol).1 := by
  intro x sc tr sol
  rw [downRun_term h1 h2]
  cases hI : integ x 3 sc so with
  | error e =>
    refine ⟨fun sol' h => by simp at h, fun hT => ?_⟩
    obtain ⟨y, hy⟩ := hT x 3 sc so
    rw [hI] at hy; cases hy
  | ok s => exact ⟨fun sol' h => by simp at h, fun _ => ⟨s, rfl⟩⟩

/-- Suffix lemma for the down-direction loop on `[4, 3]`. -/
theorem downWill43 {V E : Type} (integ : Integ V E) (thr : ℕ → EScale) (si so : EScale)
    (h1 : ¬ si ≤ thr 3) (h2 : max (thr 3) so = so) :
    ∀ (x : V) (sc : EScale) (tr : List (Seg V)) (sol : Option V),
      Terminates integ (downRun integ thr si so [4, 3] x sc tr sol).1 := by
  intro x sc tr sol
  by_cases hskip : si ≤ thr 4
  · rw [downRun_skip hskip]; exact downWill3 integ thr si so h1 h2 x sc tr sol
  · by_cases hterm : max (thr 4) so = so
    · rw [downRun_term hskip hterm]
      cases hI : integ x 4 sc so with
      | error e =>
        refine ⟨fun sol' h => by simp at h, fun hT => ?_⟩
        obtain ⟨y, hy⟩ := hT x 4 sc so
        rw [hI] at hy; cases hy
      | ok s => exact ⟨fun sol' h => by simp at h, fun _ => ⟨s, rfl⟩⟩
    · have hlt : so < thr 4 := by
        rcases le_or_lt (thr 4) so with h | h
        · exact absurd (max_eq_right h) hterm
        · exact h
      rw [downRun_step hskip hlt]
      cases hI : integ x 4 sc (thr 4) with
      | error e =>
        refine ⟨fun sol' h => by simp at h, fun hT => ?_⟩
        obtain ⟨y, hy⟩ := hT x 4 sc (thr 4)
        rw [hI] at hy; cases hy
      | ok s =>
        exact downWill3 integ thr si so h1 h2 s (thr 4)
          (tr ++ [⟨4, sc, thr 4, x⟩]) (some s)

/-- Suffix lemma for the down-direction loop on `[5, 4, 3]`. -/
theorem downWill543 {V E : Type} (integ : Integ V E) (thr : ℕ → EScale) (si so : EScale)
    (h1 : ¬ si ≤ thr 3) (h2 : max (thr 3) so = so) :
    ∀ (x : V) (sc : EScale) (tr : List (Seg V)) (sol : Option V),
      Terminates integ (downRun integ thr si so [5, 4, 3] x sc tr sol).1 := by
  intro x sc tr sol
  by_cases hskip : si ≤ thr 5
  · rw [downRun_skip hskip]; exact downWill43 integ thr si so h1 h2 x sc tr sol
  · by_cases hterm : max (thr 5) so = so
    · rw [downRun_term hskip hterm]
      cases hI : integ x 5 sc so with
      | error e =>
        refine ⟨fun sol' h => by simp at h, fun hT => ?_⟩
        obtain ⟨y, hy⟩ := hT x 5 sc so
        rw [hI] at hy; cases hy
      | ok s => exact ⟨fun sol' h => by simp at h, fun _ => ⟨s, rfl⟩⟩
    · have hlt : so < thr 5 := by
        rcases le_or_lt (thr 5) so with h | h
        · exact absurd (max_eq_right h) hterm
        · exact h
      rw [downRun_step hskip hlt]
      cases hI : integ x 5 sc (thr 5) with
      | error e =>
        refine ⟨fun sol' h => by simp at h, fun hT => ?_⟩
        obtain ⟨y, hy⟩ := hT x 5 sc (thr 5)
        rw [hI] at hy; cases hy
      | ok s =>
        exact downWill43 integ thr si so h1 h2 s (thr 5)
          (tr ++ [⟨5, sc, thr 5, x⟩]) (some s)

/-- Suffix lemma for the down-direction loop on the full regime walk
`[6, 5, 4, 3]`. -/
theorem downWill6543 {V E : Type} (integ : Integ V E) (thr : ℕ → EScale) (si so : EScale)
    (h1 : ¬ si ≤ thr 3) (h2 : max (thr 3) so = so) :
    ∀ (x : V) (sc : EScale) (tr : List (Seg V)) (sol : Option V),
      Terminates integ (downRun integ thr si so [6, 5, 4, 3] x sc tr sol).1 := by
  intro x sc tr sol
  by_cases hskip : si ≤ thr 6
  · rw [downRun_skip hskip]; exact downWill543 integ thr si so h1 h2 x sc tr sol
  · by_cases hterm : max (thr 6) so = so
    · rw [downRun_term hskip hterm]
      cases hI : integ x 6 sc so with
      | error e =>
        refine ⟨fun sol' h => by simp at h, fun hT => ?_⟩
        obtain ⟨y, hy⟩ := hT x 6 sc so
        rw [hI] at hy; cases hy
      | ok s => exact ⟨fun sol' h => by simp at h, fun _ => ⟨s, rfl⟩⟩
    · have hlt : so < thr 6 := by
        rcases le_or_lt (thr 6) so with h | h
        · exact absurd (max_eq_right h) hterm
        · exact h
      rw [downRun_step hskip hlt]
      cases hI : integ x 6 sc (thr 6) with
      | error e =>
        refine ⟨fun sol' h => by simp at h, fun hT => ?_⟩
        obtain ⟨y, hy⟩ := hT x 6 sc (thr 6)
        rw [hI] at hy; cases hy
      | ok s =>
        exact downWill543 integ thr si so h1 h2 s (thr 6)
          (tr ++ [⟨6, sc, thr 6, x⟩]) (some s)

/-- Suffix lemma for the up-direction loop: regime 6 is never skipped
(the skip guard requires `nf < 6`) and, since `thresholds[7] = +∞`, its
stop scale is always `scale_out`, so the loop returns from inside the
iteration. -/
theorem upWill6 {V E : Type} (integ : Integ V E) (thr : ℕ → EScale) (si so : EScale)
    (h7 : min (thr 7) so = so) :
    ∀ (x : V) (sc : EScale) (tr : List (Seg V)) (sol : Option V),
      Terminates integ (upRun integ thr si so [6] x sc tr sol).1 := by
  intro x sc tr sol
  have h1 : ¬ (6 < 6 ∧ thr 7 ≤ si) := fun h => lt_irrefl 6 h.1
  rw [upRun_term h1 h7]
  cases hI : integ x 6 sc so with
  | error e =>
    refine ⟨fun sol' h => by simp at h, fun hT => ?_⟩
    obtain ⟨y, hy⟩ := hT x 6 sc so
    rw [hI] at hy; cases hy
  | ok s => exact ⟨fun sol' h => by simp at h, fun _ => ⟨s, rfl⟩⟩

/-- Suffix lemma for the up-direction loop on `[5, 6]`. -/
theorem upWill56 {V E : Type} (integ : Integ V E) (thr : ℕ → EScale) (si so : EScale)
    (h7 : min (thr 7) so = so) :
    ∀ (x : V) (sc : EScale) (tr : List (Seg V)) (sol : Option V),
      Terminates integ (upRun integ thr si so [5, 6] x sc tr sol).1 := by
  intro x sc tr sol
  by_cases hskip : 5 < 6 ∧ thr 6 ≤ si
  · rw [upRun_skip hskip]; exact upWill6 integ thr si so h7 x sc tr sol
  · by_cases hterm : min (thr 6) so = so
    · rw [upRun_term hskip hterm]
      cases hI : integ x 5 sc so with
      | error e =>
        refine ⟨fun sol' h => by simp at h, fun hT => ?_⟩
        obtain ⟨y, hy⟩ := hT x 5 sc so
        rw [hI] at hy; cases hy
      | ok s => exact ⟨fun sol' h => by simp at h, fun _ => ⟨s, rfl⟩⟩
    · have hlt : thr 6 < so := by
        rcases le_or_lt so (thr 6) with h | h
        · exact absurd (min_eq_right h) hterm
        · exact h
      rw [upRun_step hskip hlt]
      cases hI : integ x 5 sc (thr 6) with
      | error e =>
        refine ⟨fun sol' h => by simp at h, fun hT => ?_⟩
        obtain ⟨y, hy⟩ := hT x 5 sc (thr 6)
        rw [hI] at hy; cases hy
      | ok s =>
        exact upWill6 integ thr si so h7 s (thr 5)
          (tr ++ [⟨5, sc, thr 6, x⟩]) (some s)

/-- Suffix lemma for the up-direction loop on `[4, 5, 6]`. -/
theorem upWill456 {V E : Type} (integ : Integ V E) (thr : ℕ → EScale) (si so : EScale)
    (h7 : min (thr 7) so = so) :
    ∀ (x : V) (sc : EScale) (tr : List (Seg V)) (sol : Option V),
      Terminates integ (upRun integ thr si so [4, 5, 6] x sc tr sol).1 := by
  intro x sc tr sol
  by_cases hskip : 4 < 6 ∧ thr 5 ≤ si
  · rw [upRun_skip hskip]; exact upWill56 integ thr si so h7 x sc tr sol
  · by_cases hterm : min (thr 5) so = so
    · rw [upRun_term hskip hterm]
      cases hI : integ x 4 sc so with
      | error e =>
        refine ⟨fun sol' h => by simp at h, fun hT => ?_⟩
        obtain ⟨y, hy⟩ := hT x 4 sc so
        rw [hI] at hy; cases hy
      | ok s => exact ⟨fun sol' h => by simp at h, fun _ => ⟨s, rfl⟩⟩
    · have hlt : thr 5 < so := by
        rcases le_or_lt so (thr 5) with h | h
        · exact absurd (min_eq_right h) hterm
        · exact h
      rw [upRun_step hskip hlt]
      cases hI : integ x 4 sc (thr 5) with
      | error e =>
        refine ⟨fun sol' h => by simp at h, fun hT => ?_⟩
        obtain ⟨y, hy⟩ := hT x 4 sc (thr 5)
        rw [hI] at hy; cases hy
      | ok s =>
        exact upWill56 integ thr si so h7 s (thr 4)
          (tr ++ [⟨4, sc, thr 5, x⟩]) (some s)

/-- Suffix lemma for the up-direction loop on the full regime walk
`[3, 4, 5, 6]`. -/
theorem upWill3456 {V E : Type} (integ : Integ V E) (thr : ℕ → EScale) (si so : EScale)
    (h7 : min (thr 7) so = so) :
    ∀ (x : V) (sc : EScale) (tr : List (Seg V)) (sol : Option V),
      Terminates integ (upRun integ thr si so [3, 4, 5, 6] x sc tr sol).1 := by
  intro x sc tr sol
  by_cases hskip : 3 < 6 ∧ thr 4 ≤ si
  · rw [upRun_skip hskip]; exact upWill456 integ thr si so h7 x sc tr sol
  · by_cases hterm : min (thr 4) so = so
    · rw [upRun_term hskip hterm]
      cases hI : integ x 3 sc so with
      | error e =>
        refine ⟨fun sol' h => by simp at h, fun hT => ?_⟩
        obtain ⟨y, hy⟩ := hT x 3 sc so
        rw [hI] at hy; cases hy
      | ok s => exact ⟨fun sol' h => by simp at h, fun _ => ⟨s, rfl⟩⟩
    · have hlt : thr 4 < so := by
        rcases le_or_lt so (thr 4) with h | h
        · exact absurd (min_eq_right h) hterm
        · exact h
      rw [upRun_step hskip hlt]
      cases hI : integ x 3 sc (thr 4) with
      | error e =>
        refine ⟨fun sol' h => by simp at h, fun hT => ?_⟩
        obtain ⟨y, hy⟩ := hT x 3 sc (thr 4)
        rw [hI] at hy; cases hy
      | ok s =>
        exact upWill456 integ thr si so h7 s (thr 3)
          (tr ++ [⟨3, sc, thr 4, x⟩]) (some s)

/-- C7: for every call with `scale_in ≠ scale_out`, `scale_out ≥ 0.1`,
finite scales, and well-formed thresholds, the per-regime loop of
`_rg_evolve_sm` reaches the terminal condition `scale_stop == scale_out`
and returns from within a loop iteration; the fall-through
`return sol` after the two loops is never executed (so in particular the
outcome is an in-loop `return` whenever the segment integrator never
fails, and a propagated integration error otherwise). -/
theorem C7_loop_terminal {V E : Type} (integ : Integ V E) (x : V) (par : Par)
    (si so : ℚ) (hne : si ≠ so) (hso : 1/10 ≤ so) (hwf : WellFormed par) :
    (∀ sol, (_rg_evolve_sm integ x par.mc par.mb par.mt si so).1 ≠ RunOut.fallback sol) ∧
    (IntegTotal integ →
      ∃ v, (_rg_evolve_sm integ x par.mc par.mb par.mt si so).1 = RunOut.loopReturn v) := by
  rcases lt_trichotomy si so with hlt | heq | hgt
  · have hd : ¬ ((so : EScale) < (si : EScale)) :=
      not_lt.2 (WithTop.coe_le_coe.2 hlt.le)
    have hu : (si : EScale) < (so : EScale) := WithTop.coe_lt_coe.2 hlt
    have h7 : min (thresholds par.mc par.mb par.mt 7) ((so : ℚ) : EScale) =
        ((so : ℚ) : EScale) := by
      simp only [thresholds]
      exact min_eq_right le_top
    simp only [_rg_evolve_sm, if_neg hd, if_pos hu]
    exact upWill3456 integ _ _ _ h7 x _ [] none
  · exact absurd heq hne
  · have hd : (so : EScale) < (si : EScale) := WithTop.coe_lt_coe.2 hgt
    have h1 : ¬ ((si : EScale) ≤ thresholds par.mc par.mb par.mt 3) := by
      simp only [thresholds]
      rw [not_le]
      exact_mod_cast lt_of_le_of_lt hso hgt
    have h2 : max (thresholds par.mc par.mb par.mt 3) ((so : ℚ) : EScale) =
        ((so : ℚ) : EScale) := by
      simp only [thresholds]
      exact max_eq_right (by exact_mod_cast hso)
    simp only [_rg_evolve_sm, if_pos hd]
    exact downWill6543 integ _ _ _ h1 h2 x _ [] none

/-- Witness for the hypotheses of `C7_loop_terminal` at a concrete input. -/
theorem C7_loop_terminal_witness :
    (∀ sol, (_rg_evolve_sm okInteg (0 : ℚ) (127/100) (209/50) 173 5 1).1 ≠
      RunOut.fallback sol) ∧
    (IntegTotal okInteg →
      ∃ v, (_rg_evolve_sm okInteg (0 : ℚ) (127/100) (209/50) 173 5 1).1 =
        RunOut.loopReturn v) :=
  C7_loop_terminal okInteg 0 ⟨127/100, 209/50, 173⟩ 5 1 (by norm_num) (by norm_num)
    (by constructor <;> norm_num)

/-- Appending a successful call to an all-successful trace keeps every
recorded call successful. -/
theorem traceOk_app {V E : Type} (integ : Integ V E) (tr : List (Seg V)) (seg : Seg V)
    (h1 : TraceOk integ tr) (v : V) (h2 : callOf integ seg = Except.ok v) :
    TraceOk integ (tr ++ [seg]) := by
  intro s hs
  rcases List.mem_append.1 hs with h | h
  · exact h1 s h
  · rw [List.mem_singleton] at h
    exact ⟨v, h ▸ h2⟩

/-- The last entry of a list that ends with an explicit element. -/
theorem lastOfConcat {α : Type} : ∀ (l : List α) (a : α), (l ++ [a]).getLast? = some a := by
  intro l a
  induction l with
  | nil => rfl
  | cons b l ih =>
    cases l with
    | nil => rfl
    | cons c l2 =>
      simp only [List.cons_append, List.getLast?_cons_cons] at ih ⊢
      exact ih

/-- Failure characterization for the down-direction loop: starting from
an all-successful accumulated trace, if the loop outcome is a propagated
integration error then the final trace ends with the failing segment,
that segment carries exactly the propagated error, and every earlier
segment succeeded; if the outcome is not an error, every recorded
segment succeeded. -/
theorem downRun_fail_spec {V E : Type} (integ : Integ V E) (thr : ℕ → EScale)
    (si so : EScale) (L : List ℕ) :
    ∀ (x : V) (sc : EScale) (tr : List (Seg V)) (sol : Option V), TraceOk integ tr →
      (∀ e, (downRun integ thr si so L x sc tr sol).1 = RunOut.err e →
        ∃ pre seg, (downRun integ thr si so L x sc tr sol).2 = pre ++ [seg] ∧
          callOf integ seg = Except.error e ∧ TraceOk integ pre) ∧
      ((∀ e, (downRun integ thr si so L x sc tr sol).1 ≠ RunOut.err e) →
        TraceOk integ (downRun integ thr si so L x sc tr sol).2) := by
  induction L with
  | nil =>
    intro x sc tr sol htr
    constructor
    · intro e he; simp [downRun] at he
    · intro _; simpa [downRun] using htr
  | cons nf rest ih =>
    intro x sc tr sol htr
    by_cases hskip : si ≤ thr nf
    · rw [downRun_skip hskip]; exact ih x sc tr sol htr
    · simp only [downRun, if_neg hskip]
      cases hI : integ x nf sc (max (thr nf) so) with
      | error e0 =>
        dsimp only
        constructor
        · intro e he
          injection he with h
          subst h
          exact ⟨tr, ⟨nf, sc, max (thr nf) so, x⟩, rfl, hI, htr⟩
        · intro hne; exact absurd rfl (hne e0)
      | ok s =>
        dsimp only
        by_cases hterm : max (thr nf) so = so
        · rw [if_pos hterm]
          constructor
          · intro e he; cases he
          · intro _
            exact traceOk_app integ tr ⟨nf, sc, max (thr nf) so, x⟩ htr s hI
        · rw [if_neg hterm]
          exact ih s (thr nf) (tr ++ [⟨nf, sc, max (thr nf) so, x⟩]) (some s)
            (traceOk_app integ tr ⟨nf, sc, max (thr nf) so, x⟩ htr s hI)

/-- Failure characterization for the up-direction loop, mirroring
`downRun_fail_spec`. -/
theorem upRun_fail_spec {V E : Type} (integ : Integ V E) (thr : ℕ → EScale)
    (si so : EScale) (L : List ℕ) :
    ∀ (x : V) (sc : EScale) (tr : List (Seg V)) (sol : Option V), TraceOk integ tr →
      (∀ e, (upRun integ thr si so L x sc tr sol).1 = RunOut.err e →
        ∃ pre seg, (upRun integ thr si so L x sc tr sol).2 = pre ++ [seg] ∧
          callOf integ seg = Except.error e ∧ TraceOk integ pre) ∧
      ((∀ e, (upRun integ thr si so L x sc tr sol).1 ≠ RunOut.err e) →
        TraceOk integ (upRun integ thr si so L x sc tr sol).2) := by
  induction L with
  | nil =>
    intro x sc tr sol htr
    constructor
    · intro e he; simp [upRun] at he
    · intro _; simpa [upRun] using htr
  | cons nf rest ih =>
    intro x sc tr sol htr
    by_cases hskip : nf < 6 ∧ thr (nf + 1) ≤ si
    · rw [upRun_skip hskip]; exact ih x sc tr sol htr
    · simp only [upRun, if_neg hskip]
      cases hI : integ x nf sc (min (thr (nf + 1)) so) with
      | error e0 =>
        dsimp only
        constructor
        · intro e he
          injection he with h
          subst h
          exact ⟨tr, ⟨nf, sc, min (thr (nf + 1)) so, x⟩, rfl, hI, htr⟩
        · intro hne; exact absurd rfl (hne e0)
      | ok s =>
        dsimp only
        by_cases hterm : min (thr (nf + 1)) so = so
        · rw [if_pos hterm]
          constructor
          · intro e he; cases he
          · intro _
            exact traceOk_app integ tr ⟨nf, sc, min (thr (nf + 1)) so, x⟩ htr s hI
        · rw [if_neg hterm]
          exact ih s (thr nf) (tr ++ [⟨nf, sc, min (thr (nf + 1)) so, x⟩]) (some s)
            (traceOk_app integ tr ⟨nf, sc, min (thr (nf + 1)) so, x⟩ htr s hI)

/-- C8: if any single segment integration fails, the whole evolve call
fails with that same error unmodified: the failing segment is the last
invocation performed (no retry, no further segments), and no partial
result — in particular no vector computed by an earlier segment — is
returned to the caller. -/
theorem C8_error_propagation {V E : Type} (integ : Integ V E) (x : V) (par : Par)
    (si so : ℚ) (e : E) (seg : Seg V)
    (hmem : seg ∈ (rg_evolve_sm integ x par si so).2)
    (hfail : callOf integ seg = Except.error e) :
    (rg_evolve_sm integ x par si so).1 = EvOut.integError e ∧
    (rg_evolve_sm integ x par si so).2.getLast? = some seg := by
  by_cases heq : si = so
  · simp only [rg_evolve_sm, if_pos heq] at hmem
    exact absurd hmem (List.not_mem_nil seg)
  · by_cases hdom : so < 1/10
    · simp only [rg_evolve_sm, if_neg heq, if_pos hdom] at hmem
      exact absurd hmem (List.not_mem_nil seg)
    · rcases lt_trichotomy si so with hlt | heq' | hgt
      · have hnd : ¬ ((so : EScale) < (si : EScale)) :=
          not_lt.2 (WithTop.coe_le_coe.2 hlt.le)
        have hu : (si : EScale) < (so : EScale) := WithTop.coe_lt_coe.2 hlt
        simp only [rg_evolve_sm, if_neg heq, if_neg hdom, _rg_evolve_sm,
          if_neg hnd, if_pos hu] at hmem ⊢
        have hspec := upRun_fail_spec integ (thresholds par.mc par.mb par.mt)
          (si : EScale) (so : EScale) [3, 4, 5, 6] x (si : EScale) [] none
          (fun s hs => absurd hs (List.not_mem_nil s))
        cases hout : (upRun integ (thresholds par.mc par.mb par.mt)
            (si : EScale) (so : EScale) [3, 4, 5, 6] x (si : EScale) [] none).1 with
        | err e' =>
          obtain ⟨pre, lseg, htr, hcall, hpre⟩ := hspec.1 e' hout
          rw [htr] at hmem
          rcases List.mem_append.1 hmem with hp | hl
          · obtain ⟨v, hv⟩ := hpre seg hp
            rw [hfail] at hv; cases hv
          · rw [List.mem_singleton] at hl
            subst hl
            rw [hcall] at hfail
            injection hfail with h'
            subst h'
            refine ⟨?_, ?_⟩
            · rfl
            · rw [htr]; exact lastOfConcat pre seg
        | loopReturn v =>
          have hok := hspec.2 (fun e' h => by rw [hout] at h; cases h)
          obtain ⟨v', hv⟩ := hok seg hmem
          rw [hfail] at hv; cases hv
        | fallback sol =>
          have hok := hspec.2 (fun e' h => by rw [hout] at h; cases h)
          obtain ⟨v', hv⟩ := hok seg hmem
          rw [hfail] at hv; cases hv
      · exact absurd heq' heq
      · have hd : (so : EScale) < (si : EScale) := WithTop.coe_lt_coe.2 hgt
        simp only [rg_evolve_sm, if_neg heq, if_neg hdom, _rg_evolve_sm,
          if_pos hd] at hmem ⊢
        have hspec := downRun_fail_spec integ (thresholds par.mc par.mb par.mt)
          (si : EScale) (so : EScale) [6, 5, 4, 3] x (si : EScale) [] none
          (fun s hs => absurd hs (List.not_mem_nil s))
        cases hout : (downRun integ (thresholds par.mc par.mb par.mt)
            (si : EScale) (so : EScale) [6, 5, 4, 3] x (si : EScale) [] none).1 with
        | err e' =>
          obtain ⟨pre, lseg, htr, hcall, hpre⟩ := hspec.1 e' hout
          rw [htr] at hmem
          rcases List.mem_append.1 hmem with hp | hl
          · obtain ⟨v, hv⟩ := hpre seg hp
            rw [hfail] at hv; cases hv
          · rw [List.mem_singleton] at hl
            subst hl
            rw [hcall] at hfail
            injection hfail with h'
            subst h'
            refine ⟨?_, ?_⟩
            · rfl
            · rw [htr]; exact lastOfConcat pre seg
        | loopReturn v =>
          have hok := hspec.2 (fun e' h => by rw [hout] at h; cases h)
          obtain ⟨v', hv⟩ := hok seg hmem
          rw [hfail] at hv; cases hv
        | fallback sol =>
          have hok := hspec.2 (fun e' h => by rw [hout] at h; cases h)
          obtain ⟨v', hv⟩ := hok seg hmem
          rw [hfail] at hv; cases hv


/-- Threshold-table entry for regime 3, as a rewriting equation. -/
theorem thr3 (mc mb mt : ℚ) : thresholds mc mb mt 3 = ((1/10 : ℚ) : EScale) := rfl

/-- Threshold-table entry for regime 4, as a rewriting equation. -/
theorem thr4 (mc mb mt : ℚ) : thresholds mc mb mt 4 = (mc : EScale) := rfl

/-- Threshold-table entry for regime 5, as a rewriting equation. -/
theorem thr5 (mc mb mt : ℚ) : thresholds mc mb mt 5 = (mb : EScale) := rfl

/-- Threshold-table entry for regime 6, as a rewriting equation. -/
theorem thr6 (mc mb mt : ℚ) : thresholds mc mb mt 6 = (mt : EScale) := rfl

/-- Threshold-table entry for regime 7, as a rewriting equation. -/
theorem thr7 (mc mb mt : ℚ) : thresholds mc mb mt 7 = (⊤ : EScale) := rfl

/-- Helper: an evolution whose two scales lie strictly inside the same
regime band (strictly between the same two adjacent thresholds) reduces
to a single segment-integrator invocation on that band's right-hand
side, from `scale_in` straight to `scale_out`, in either direction. -/
theorem sameBand_run {V E : Type} (integ : Integ V E) (par : Par) (k : ℕ)
    (hk : k = 3 ∨ k = 4 ∨ k = 5 ∨ k = 6) (hwf : WellFormed par) (si so : ℚ)
    (hsi : InBand par k si) (hso : InBand par k so) (hne : si ≠ so) (x : V) :
    rg_evolve_sm integ x par si so =
      (evOutOfExcept (integ x k (si : EScale) (so : EScale)),
       [⟨k, (si : EScale), (so : EScale), x⟩]) := by
  obtain ⟨hwf1, hwf2, hwf3⟩ := hwf
  rcases hk with rfl | rfl | rfl | rfl <;>
    simp only [InBand, Nat.reduceAdd, thr3, thr4, thr5, thr6, thr7,
      WithTop.coe_lt_coe, WithTop.coe_lt_top, and_true] at hsi hso
  · -- regime 3: band (0.1, mc)
    have hguard : ¬ so < 1/10 := not_lt.2 hso.1.le
    rcases lt_trichotomy si so with hdir | heq | hdir
    · have hnd : ¬ ((so : EScale) < (si : EScale)) :=
        not_lt.2 (WithTop.coe_le_coe.2 hdir.le)
      have hu : (si : EScale) < (so : EScale) := WithTop.coe_lt_coe.2 hdir
      have hns : ¬ (3 < 6 ∧ thresholds par.mc par.mb par.mt 4 ≤ (si : EScale)) := by
        rw [thr4]
        exact fun h => absurd h.2 (not_le.2 (WithTop.coe_lt_coe.2 hsi.2))
      have hter : min (thresholds par.mc par.mb par.mt 4) ((so : ℚ) : EScale) =
          ((so : ℚ) : EScale) := by
        rw [thr4]; exact min_eq_right (WithTop.coe_le_coe.2 hso.2.le)
      simp only [rg_evolve_sm, if_neg hne, if_neg hguard, _rg_evolve_sm,
        if_neg hnd, if_pos hu]
      rw [upRun_term hns hter]
      cases hI : integ x 3 (si : EScale) (so : EScale) <;>
        simp [RunOut.toEv, evOutOfExcept]
    · exact absurd heq hne
    · have hd : (so : EScale) < (si : EScale) := WithTop.coe_lt_coe.2 hdir
      have hs6 : (si : EScale) ≤ thresholds par.mc par.mb par.mt 6 := by
        rw [thr6]; exact WithTop.coe_le_coe.2 (by linarith [hsi.2])
      have hs5 : (si : EScale) ≤ thresholds par.mc par.mb par.mt 5 := by
        rw [thr5]; exact WithTop.coe_le_coe.2 (by linarith [hsi.2])
      have hs4 : (si : EScale) ≤ thresholds par.mc par.mb par.mt 4 := by
        rw [thr4]; exact WithTop.coe_le_coe.2 hsi.2.le
      have hns : ¬ ((si : EScale) ≤ thresholds par.mc par.mb par.mt 3) := by
        rw [thr3]; exact not_le.2 (WithTop.coe_lt_coe.2 hsi.1)
      have hter : max (thresholds par.mc par.mb par.mt 3) ((so : ℚ) : EScale) =
          ((so : ℚ) : EScale) := by
        rw [thr3]; exact max_eq_right (WithTop.coe_le_coe.2 hso.1.le)
      simp only [rg_evolve_sm, if_neg hne, if_neg hguard, _rg_evolve_sm, if_pos hd]
      rw [downRun_skip hs6, downRun_skip hs5, downRun_skip hs4, downRun_term hns hter]
      cases hI : integ x 3 (si : EScale) (so : EScale) <;>
        simp [RunOut.toEv, evOutOfExcept]
  · -- regime 4: band (mc, mb)
    have hguard : ¬ so < 1/10 := not_lt.2 (by linarith [hso.1])
    rcases lt_trichotomy si so with hdir | heq | hdir
    · have hnd : ¬ ((so : EScale) < (si : EScale)) :=
        not_lt.2 (WithTop.coe_le_coe.2 hdir.le)
      have hu : (si : EScale) < (so : EScale) := WithTop.coe_lt_coe.2 hdir
      have hsk3 : 3 < 6 ∧ thresholds par.mc par.mb par.mt 4 ≤ (si : EScale) :=
        ⟨by omega, by rw [thr4]; exact WithTop.coe_le_coe.2 hsi.1.le⟩
      have hns : ¬ (4 < 6 ∧ thresholds par.mc par.mb par.mt 5 ≤ (si : EScale)) := by
        rw [thr5]
        exact fun h => absurd h.2 (not_le.2 (WithTop.coe_lt_coe.2 hsi.2))
      have hter : min (thresholds par.mc par.mb par.mt 5) ((so : ℚ) : EScale) =
          ((so : ℚ) : EScale) := by
        rw [thr5]; exact min_eq_right (WithTop.coe_le_coe.2 hso.2.le)
      simp only [rg_evolve_sm, if_neg hne, if_neg hguard, _rg_evolve_sm,
        if_neg hnd, if_pos hu]
      rw [upRun_skip hsk3, upRun_term hns hter]
      cases hI : integ x 4 (si : EScale) (so : EScale) <;>
        simp [RunOut.toEv, evOutOfExcept]
    · exact absurd heq hne
    · have hd : (so : EScale) < (si : EScale) := WithTop.coe_lt_coe.2 hdir
      have hs6 : (si : EScale) ≤ thresholds par.mc par.mb par.mt 6 := by
        rw [thr6]; exact WithTop.coe_le_coe.2 (by linarith [hsi.2])
      have hs5 : (si : EScale) ≤ thresholds par.mc par.mb par.mt 5 := by
        rw [thr5]; exact WithTop.coe_le_coe.2 hsi.2.le
      have hns : ¬ ((si : EScale) ≤ thresholds par.mc par.mb par.mt 4) := by
        rw [thr4]; exact not_le.2 (WithTop.coe_lt_coe.2 hsi.1)
      have hter : max (thresholds par.mc par.mb par.mt 4) ((so : ℚ) : EScale) =
          ((so : ℚ) : EScale) := by
        rw [thr4]; exact max_eq_right (WithTop.coe_le_coe.2 hso.1.le)
      simp only [rg_evolve_sm, if_neg hne, if_neg hguard, _rg_evolve_sm, if_pos hd]
      rw [downRun_skip hs6, downRun_skip hs5, downRun_term hns hter]
      cases hI : integ x 4 (si : EScale) (so : EScale) <;>
        simp [RunOut.toEv, evOutOfExcept]
  · -- regime 5: band (mb, mt)
    have hguard : ¬ so < 1/10 := not_lt.2 (by linarith [hso.1])
    rcases lt_trichotomy si so with hdir | heq | hdir
    · have hnd : ¬ ((so : EScale) < (si : EScale)) :=
        not_lt.2 (WithTop.coe_le_coe.2 hdir.le)
      have hu : (si : EScale) < (so : EScale) := WithTop.coe_lt_coe.2 hdir
      have hsk3 : 3 < 6 ∧ thresholds par.mc par.mb par.mt 4 ≤ (si : EScale) :=
        ⟨by omega, by rw [thr4]; exact WithTop.coe_le_coe.2 (by linarith [hsi.1])⟩
      have hsk4 : 4 < 6 ∧ thresholds par.mc par.mb par.mt 5 ≤ (si : EScale) :=
        ⟨by omega, by rw [thr5]; exact WithTop.coe_le_coe.2 hsi.1.le⟩
      have hns : ¬ (5 < 6 ∧ thresholds par.mc par.mb par.mt 6 ≤ (si : EScale)) := by
        rw [thr6]
        exact fun h => absurd h.2 (not_le.2 (WithTop.coe_lt_coe.2 hsi.2))
      have hter : min (thresholds par.mc par.mb par.mt 6) ((so : ℚ) : EScale) =
          ((so : ℚ) : EScale) := by
        rw [thr6]; exact min_eq_right (WithTop.coe_le_coe.2 hso.2.le)
      simp only [rg_evolve_sm, if_neg hne, if_neg hguard, _rg_evolve_sm,
        if_neg hnd, if_pos hu]
      rw [upRun_skip hsk3, upRun_skip hsk4, upRun_term hns hter]
      cases hI : integ x 5 (si : EScale) (so : EScale) <;>
        simp [RunOut.toEv, evOutOfExcept]
    · exact absurd heq hne
    · have hd : (so : EScale) < (si : EScale) := WithTop.coe_lt_coe.2 hdir
      have hs6 : (si : EScale) ≤ thresholds par.mc par.mb par.mt 6 := by
        rw [thr6]; exact WithTop.coe_le_coe.2 hsi.2.le
      have hns : ¬ ((si : EScale) ≤ thresholds par.mc par.mb par.mt 5) := by
        rw [thr5]; exact not_le.2 (WithTop.coe_lt_coe.2 hsi.1)
      have hter : max (thresholds par.mc par.mb par.mt 5) ((so : ℚ) : EScale) =
          ((so : ℚ) : EScale) := by
        rw [thr5]; exact max_eq_right (WithTop.coe_le_coe.2 hso.1.le)
      simp only [rg_evolve_sm, if_neg hne, if_neg hguard, _rg_evolve_sm, if_pos hd]
      rw [downRun_skip hs6, downRun_term hns hter]
      cases hI : integ x 5 (si : EScale) (so : EScale) <;>
        simp [RunOut.toEv, evOutOfExcept]
  · -- regime 6: band (mt, ∞)
    have hguard : ¬ so < 1/10 := not_lt.2 (by linarith [hso])
    rcases lt_trichotomy si so with hdir | heq | hdir
    · have hnd : ¬ ((so : EScale) < (si : EScale)) :=
        not_lt.2 (WithTop.coe_le_coe.2 hdir.le)
      have hu : (si : EScale) < (so : EScale) := WithTop.coe_lt_coe.2 hdir
      have hsk3 : 3 < 6 ∧ thresholds par.mc par.mb par.mt 4 ≤ (si : EScale) :=
        ⟨by omega, by rw [thr4]; exact WithTop.coe_le_coe.2 (by linarith [hsi])⟩
      have hsk4 : 4 < 6 ∧ thresholds par.mc par.mb par.mt 5 ≤ (si : EScale) :=
        ⟨by omega, by rw [thr5]; exact WithTop.coe_le_coe.2 (by linarith [hsi])⟩
      have hsk5 : 5 < 6 ∧ thresholds par.mc par.mb par.mt 6 ≤ (si : EScale) :=
        ⟨by omega, by rw [thr6]; exact WithTop.coe_le_coe.2 hsi.le⟩
      have hns : ¬ (6 < 6 ∧ thresholds par.mc par.mb par.mt 7 ≤ (si : EScale)) :=
        fun h => absurd h.1 (lt_irrefl 6)
      have hter : min (thresholds par.mc par.mb par.mt 7) ((so : ℚ) : EScale) =
          ((so : ℚ) : EScale) := by
        rw [thr7]; exact min_eq_right le_top
      simp only [rg_evolve_sm, if_neg hne, if_neg hguard, _rg_evolve_sm,
        if_neg hnd, if_pos hu]
      rw [upRun_skip hsk3, upRun_skip hsk4, upRun_skip hsk5, upRun_term hns hter]
      cases hI : integ x 6 (si : EScale) (so : EScale) <;>
        simp [RunOut.toEv, evOutOfExcept]
    · exact absurd heq hne
    · have hd : (so : EScale) < (si : EScale) := WithTop.coe_lt_coe.2 hdir
      have hns : ¬ ((si : EScale) ≤ thresholds par.mc par.mb par.mt 6) := by
        rw [thr6]; exact not_le.2 (WithTop.coe_lt_coe.2 hsi)
      have hter : max (thresholds par.mc par.mb par.mt 6) ((so : ℚ) : EScale) =
          ((so : ℚ) : EScale) := by
        rw [thr6]; exact max_eq_right (WithTop.coe_le_coe.2 hso.le)
      simp only [rg_evolve_sm, if_neg hne, if_neg hguard, _rg_evolve_sm, if_pos hd]
      rw [downRun_term hns hter]
      cases hI : integ x 6 (si : EScale) (so : EScale) <;>
        simp [RunOut.toEv, evOutOfExcept]

/-- Wrapper-level outcomes obtained from the driver are never the
`DomainError`: that error can only be raised by the `scale_out < 0.1`
guard in the wrapper itself. -/
theorem toEv_ne_domain {V E : Type} (r : RunOut V E) : r.toEv ≠ EvOut.domainError := by
  cases r with
  | loopReturn v => simp [RunOut.toEv]
  | fallback sol => cases sol <;> simp [RunOut.toEv]
  | err e => simp [RunOut.toEv]

/-- C3: for every initial vector and every scale (including scales below
the 0.1 validity floor), evolving from a scale to itself returns the
initial vector exactly, and the segment integrator is never invoked
(empty invocation trace). -/
theorem C3_identity {V E : Type} (integ : Integ V E) (x : V) (par : Par) (s : ℚ) :
    rg_evolve_sm integ x par s s = (EvOut.value x, []) := by
  simp [rg_evolve_sm]

/-- C2, counterexample: at `scale_in = scale_out = 0.05` the claim "every
call with `scale_out < 0.1` raises a DomainError" fails — the identity
short-circuit is checked first, so the call returns the initial vector
and raises nothing. -/
theorem C2_counterexample :
    (rg_evolve_sm okInteg (0 : ℚ) ⟨127/100, 209/50, 173⟩ (1/20) (1/20)).1 =
      EvOut.value 0 ∧
    (rg_evolve_sm okInteg (0 : ℚ) ⟨127/100, 209/50, 173⟩ (1/20) (1/20)).1 ≠
      EvOut.domainError := by
  constructor
  · simp [rg_evolve_sm]
  · simp [rg_evolve_sm]

/-- C2, amended: for every call with `scale_in ≠ scale_out` and
`scale_out < 0.1`, the wrapper raises the DomainError and performs no
integration (empty invocation trace). -/
theorem C2_domain_guard {V E : Type} (integ : Integ V E) (x : V) (par : Par)
    (si so : ℚ) (hso : so < 1/10) (hne : si ≠ so) :
    rg_evolve_sm integ x par si so = (EvOut.domainError, []) := by
  simp only [rg_evolve_sm, if_neg hne, if_pos hso]

/-- Witness for the hypotheses of `C2_domain_guard` at a concrete input. -/
theorem C2_domain_guard_witness :
    rg_evolve_sm okInteg (0 : ℚ) ⟨127/100, 209/50, 173⟩ 1 (1/20) =
      (EvOut.domainError, []) :=
  C2_domain_guard okInteg 0 ⟨127/100, 209/50, 173⟩ 1 (1/20) (by norm_num) (by norm_num)

/-- C4: with charm mass 1.27, bottom mass 4.18, top mass 173, evolving
down from 91.1876 to 5.0 skips regime 6 and terminates in the regime-5
iteration with `scale_stop = max(4.18, 5.0) = 5.0`: the segment
integrator is invoked exactly once, from 91.1876 to 5.0, with the
regime-5 right-hand side, and its result is returned. -/
theorem C4_single_segment {V E : Type} (integ : Integ V E) (x : V) :
    rg_evolve_sm integ x ⟨127/100, 209/50, 173⟩ (911876/10000) 5 =
      (evOutOfExcept (integ x 5 ((911876/10000 : ℚ) : EScale) ((5 : ℚ) : EScale)),
       [⟨5, ((911876/10000 : ℚ) : EScale), ((5 : ℚ) : EScale), x⟩]) :=
  sameBand_run integ ⟨127/100, 209/50, 173⟩ 5 (by omega)
    (by constructor <;> norm_num) (911876/10000) 5
    (by
      simp only [InBand, Nat.reduceAdd, thr5, thr6, WithTop.coe_lt_coe]
      norm_num)
    (by
      simp only [InBand, Nat.reduceAdd, thr5, thr6, WithTop.coe_lt_coe]
      norm_num)
    (by norm_num) x

/-- C1: concrete demonstration of the upward carry-forward defect.  With
thresholds (1.27, 4.18, 173), running up from 1 to 5 produces three
segments; the regime-3 segment ends at 1.27 (the charm threshold just
reached) but the regime-4 segment starts at 0.1 (`thresholds[3]`, the
regime's own lower threshold), and the regime-5 segment starts at 1.27
instead of 4.18 — consecutive segments do not chain. -/
theorem C1_upward_carry_gap :
    (rg_evolve_sm okInteg (0 : ℚ) ⟨127/100, 209/50, 173⟩ 1 5).2 =
      [⟨3, ((1 : ℚ) : EScale), ((127/100 : ℚ) : EScale), 0⟩,
       ⟨4, ((1/10 : ℚ) : EScale), ((209/50 : ℚ) : EScale), 1⟩,
       ⟨5, ((127/100 : ℚ) : EScale), ((5 : ℚ) : EScale), 2⟩] ∧
    ((127/100 : ℚ) : EScale) ≠ ((1/10 : ℚ) : EScale) ∧
    ((209/50 : ℚ) : EScale) ≠ ((127/100 : ℚ) : EScale) := by
  refine ⟨?_, ?_, ?_⟩
  · have hne : (1 : ℚ) ≠ 5 := by norm_num
    have hguard : ¬ (5 : ℚ) < 1/10 := by norm_num
    have hnd : ¬ (((5 : ℚ) : EScale) < ((1 : ℚ) : EScale)) :=
      not_lt.2 (WithTop.coe_le_coe.2 (by norm_num))
    have hu : ((1 : ℚ) : EScale) < ((5 : ℚ) : EScale) :=
      WithTop.coe_lt_coe.2 (by norm_num)
    have hns3 : ¬ (3 < 6 ∧ thresholds (127/100) (209/50) 173 4 ≤ ((1 : ℚ) : EScale)) := by
      rw [thr4]
      exact fun h => absurd h.2 (not_le.2 (WithTop.coe_lt_coe.2 (by norm_num)))
    have hst3 : thresholds (127/100) (209/50) 173 4 < ((5 : ℚ) : EScale) := by
      rw [thr4]; exact WithTop.coe_lt_coe.2 (by norm_num)
    have hns4 : ¬ (4 < 6 ∧ thresholds (127/100) (209/50) 173 5 ≤ ((1 : ℚ) : EScale)) := by
      rw [thr5]
      exact fun h => absurd h.2 (not_le.2 (WithTop.coe_lt_coe.2 (by norm_num)))
    have hst4 : thresholds (127/100) (209/50) 173 5 < ((5 : ℚ) : EScale) := by
      rw [thr5]; exact WithTop.coe_lt_coe.2 (by norm_num)
    have hns5 : ¬ (5 < 6 ∧ thresholds (127/100) (209/50) 173 6 ≤ ((1 : ℚ) : EScale)) := by
      rw [thr6]
      exact fun h => absurd h.2 (not_le.2 (WithTop.coe_lt_coe.2 (by norm_num)))
    have hter5 : min (thresholds (127/100) (209/50) 173 6) ((5 : ℚ) : EScale) =
        ((5 : ℚ) : EScale) := by
      rw [thr6]; exact min_eq_right (WithTop.coe_le_coe.2 (by norm_num))
    simp only [rg_evolve_sm, if_neg hne, if_neg hguard, _rg_evolve_sm,
      if_neg hnd, if_pos hu]
    rw [upRun_step hns3 hst3]
    simp only [okInteg]
    rw [upRun_step hns4 hst4]
    simp only [okInteg]
    rw [upRun_term hns5 hter5]
    simp only [okInteg]
    simp only [Nat.reduceAdd, thr3, thr4, thr5, thr6, List.nil_append,
      List.cons_append, List.append_nil]
    norm_num
  · intro h
    rw [WithTop.coe_eq_coe] at h
    norm_num at h
  · intro h
    rw [WithTop.coe_eq_coe] at h
    norm_num at h

/-- Witness for the hypotheses of `C8_error_propagation` at a concrete
input: with an always-failing integrator, a same-band run from 1 to 1.2
invokes the regime-3 segment, which fails, and the whole call yields
exactly that integration error with the failing segment last. -/
theorem C8_error_propagation_witness :
    ((⟨3, ((1 : ℚ) : EScale), ((6/5 : ℚ) : EScale), (0 : ℚ)⟩ : Seg ℚ) ∈
        (rg_evolve_sm failInteg (0 : ℚ) ⟨127/100, 209/50, 173⟩ 1 (6/5)).2) ∧
      ((rg_evolve_sm failInteg (0 : ℚ) ⟨127/100, 209/50, 173⟩ 1 (6/5)).1 =
          EvOut.integError () ∧
        (rg_evolve_sm failInteg (0 : ℚ) ⟨127/100, 209/50, 173⟩ 1 (6/5)).2.getLast? =
          some ⟨3, ((1 : ℚ) : EScale), ((6/5 : ℚ) : EScale), 0⟩) := by
  have hrun := sameBand_run failInteg ⟨127/100, 209/50, 173⟩ 3 (by omega)
    (by constructor <;> norm_num) 1 (6/5)
    (by
      simp only [InBand, Nat.reduceAdd, thr3, thr4, WithTop.coe_lt_coe]
      norm_num)
    (by
      simp only [InBand, Nat.reduceAdd, thr3, thr4, WithTop.coe_lt_coe]
      norm_num)
    (by norm_num) (0 : ℚ)
  have hmem : (⟨3, ((1 : ℚ) : EScale), ((6/5 : ℚ) : EScale), (0 : ℚ)⟩ : Seg ℚ) ∈
      (rg_evolve_sm failInteg (0 : ℚ) ⟨127/100, 209/50, 173⟩ 1 (6/5)).2 := by
    rw [hrun]
    exact List.mem_singleton.2 rfl
  exact ⟨hmem,
    C8_error_propagation failInteg 0 ⟨127/100, 209/50, 173⟩ 1 (6/5) ()
      ⟨3, ((1 : ℚ) : EScale), ((6/5 : ℚ) : EScale), 0⟩ hmem rfl⟩

/-- C10: the 0.1 validity floor is enforced only on the target scale.
For an upward call with `0 < scale_in < 0.1 ≤ scale_out` and well-formed
thresholds, no DomainError is raised, and the first segment-integrator
invocation uses the regime-3 right-hand side starting at `scale_in`
itself (below the floor), stopping at `min(charm mass, scale_out)`. -/
theorem C10_floor_only_on_target {V E : Type} (integ : Integ V E) (x : V) (par : Par)
    (si so : ℚ) (h0 : 0 < si) (hsi : si < 1/10) (hso : 1/10 ≤ so)
    (hwf : WellFormed par) :
    (rg_evolve_sm integ x par si so).1 ≠ EvOut.domainError ∧
    (rg_evolve_sm integ x par si so).2.head? =
      some ⟨3, (si : EScale), min ((par.mc : ℚ) : EScale) ((so : ℚ) : EScale), x⟩ := by
  obtain ⟨hwf1, hwf2, hwf3⟩ := hwf
  have hlt : si < so := lt_of_lt_of_le hsi hso
  have hne : si ≠ so := ne_of_lt hlt
  have hguard : ¬ so < 1/10 := not_lt.2 hso
  have hnd : ¬ ((so : EScale) < (si : EScale)) := not_lt.2 (WithTop.coe_le_coe.2 hlt.le)
  have hu : (si : EScale) < (so : EScale) := WithTop.coe_lt_coe.2 hlt
  have hns : ¬ (3 < 6 ∧ thresholds par.mc par.mb par.mt 4 ≤ (si : EScale)) := by
    rw [thr4]
    exact fun h => absurd h.2 (not_le.2 (WithTop.coe_lt_coe.2 (by linarith)))
  have hthr4 : thresholds par.mc par.mb par.mt 4 = ((par.mc : ℚ) : EScale) :=
    thr4 _ _ _
  simp only [rg_evolve_sm, if_neg hne, if_neg hguard, _rg_evolve_sm,
    if_neg hnd, if_pos hu]
  refine ⟨toEv_ne_domain _, ?_⟩
  by_cases hterm : min (thresholds par.mc par.mb par.mt 4) ((so : ℚ) : EScale) =
      ((so : ℚ) : EScale)
  · rw [upRun_term hns hterm]
    rw [hthr4] at hterm
    cases hI : integ x 3 (si : EScale) ((so : ℚ) : EScale) <;> simp [hterm]
  · have hstep : thresholds par.mc par.mb par.mt 4 < ((so : ℚ) : EScale) := by
      rcases le_or_lt ((so : ℚ) : EScale) (thresholds par.mc par.mb par.mt 4) with h | h
      · exact absurd (min_eq_right h) hterm
      · exact h
    have hmin : min ((par.mc : ℚ) : EScale) ((so : ℚ) : EScale) =
        ((par.mc : ℚ) : EScale) := by
      rw [← hthr4]; exact min_eq_left hstep.le
    rw [upRun_step hns hstep]
    simp only [Nat.reduceAdd]
    cases hI : integ x 3 (si : EScale) (thresholds par.mc par.mb par.mt 4) with
    | error e => simp [hmin, hthr4]
    | ok s =>
      obtain ⟨t, ht⟩ := upRun_trace_extend integ (thresholds par.mc par.mb par.mt)
        (si : EScale) ((so : ℚ) : EScale) [4, 5, 6] s
        (thresholds par.mc par.mb par.mt 3)
        ([] ++ [⟨3, (si : EScale), thresholds par.mc par.mb par.mt 4, x⟩]) (some s)
      rw [ht]
      simp [hmin, hthr4]

/-- Witness for the hypotheses of `C10_floor_only_on_target` at a
concrete input below the validity floor. -/
theorem C10_floor_only_on_target_witness :
    (rg_evolve_sm okInteg (0 : ℚ) ⟨127/100, 209/50, 173⟩ (1/20) 1).1 ≠
      EvOut.domainError ∧
    (rg_evolve_sm okInteg (0 : ℚ) ⟨127/100, 209/50, 173⟩ (1/20) 1).2.head? =
      some ⟨3, ((1/20 : ℚ) : EScale),
        min ((127/100 : ℚ) : EScale) ((1 : ℚ) : EScale), (0 : ℚ)⟩ :=
  C10_floor_only_on_target okInteg 0 ⟨127/100, 209/50, 173⟩ (1/20) 1
    (by norm_num) (by norm_num) (by norm_num) (by constructor <;> norm_num)

/-- Helper: an upward evolution from a scale strictly inside the band
below threshold `k` to a scale strictly inside the band above it crosses
exactly that one threshold: the regime-`(k-1)` segment runs from
`scale_in` to `thresholds[k]`, and the terminal regime-`k` segment runs
from `thresholds[k-1]` (the re-seeded running scale, exactly as in the
source) to `scale_out`. -/
theorem crossBand_run {V E : Type} (integ : Integ V E) (par : Par) (k : ℕ)
    (hk : k = 4 ∨ k = 5 ∨ k = 6) (hwf : WellFormed par) (si so : ℚ)
    (hsi : InBand par (k - 1) si) (hso : InBand par k so)
    (hT : IntegTotal integ) (x : V) :
    ∃ v, integ x (k - 1) (si : EScale) (thresholds par.mc par.mb par.mt k) =
        Except.ok v ∧
      rg_evolve_sm integ x par si so =
        (evOutOfExcept
          (integ v k (thresholds par.mc par.mb par.mt (k - 1)) ((so : ℚ) : EScale)),
         [⟨k - 1, (si : EScale), thresholds par.mc par.mb par.mt k, x⟩,
          ⟨k, thresholds par.mc par.mb par.mt (k - 1), ((so : ℚ) : EScale), v⟩]) := by
  obtain ⟨hwf1, hwf2, hwf3⟩ := hwf
  rcases hk with rfl | rfl | rfl <;>
    simp only [Nat.reduceSub] at hsi ⊢ <;>
    simp only [InBand, Nat.reduceAdd, thr3, thr4, thr5, thr6, thr7,
      WithTop.coe_lt_coe, WithTop.coe_lt_top, and_true] at hsi hso
  · -- crossing the charm threshold: regime 3 then regime 4
    have hne : si ≠ so := ne_of_lt (by linarith [hsi.2, hso.1])
    have hguard : ¬ so < 1/10 := not_lt.2 (by linarith)
    have hnd : ¬ ((so : EScale) < (si : EScale)) :=
      not_lt.2 (WithTop.coe_le_coe.2 (by linarith))
    have hu : (si : EScale) < (so : EScale) := WithTop.coe_lt_coe.2 (by linarith)
    have hns3 : ¬ (3 < 6 ∧ thresholds par.mc par.mb par.mt 4 ≤ (si : EScale)) := by
      rw [thr4]
      exact fun h => absurd h.2 (not_le.2 (WithTop.coe_lt_coe.2 hsi.2))
    have hst3 : thresholds par.mc par.mb par.mt 4 < ((so : ℚ) : EScale) := by
      rw [thr4]; exact WithTop.coe_lt_coe.2 hso.1
    have hns4 : ¬ (4 < 6 ∧ thresholds par.mc par.mb par.mt 5 ≤ (si : EScale)) := by
      rw [thr5]
      exact fun h => absurd h.2 (not_le.2 (WithTop.coe_lt_coe.2 (by linarith [hsi.2])))
    have hter4 : min (thresholds par.mc par.mb par.mt 5) ((so : ℚ) : EScale) =
        ((so : ℚ) : EScale) := by
      rw [thr5]; exact min_eq_right (WithTop.coe_le_coe.2 hso.2.le)
    obtain ⟨v, hv⟩ := hT x 3 (si : EScale) (thresholds par.mc par.mb par.mt 4)
    refine ⟨v, hv, ?_⟩
    simp only [rg_evolve_sm, if_neg hne, if_neg hguard, _rg_evolve_sm,
      if_neg hnd, if_pos hu]
    rw [upRun_step hns3 hst3]
    simp only [Nat.reduceAdd]
    rw [hv]
    dsimp only
    rw [upRun_term hns4 hter4]
    cases hI : integ v 4 (thresholds par.mc par.mb par.mt 3) ((so : ℚ) : EScale) <;>
      simp [RunOut.toEv, evOutOfExcept]
  · -- crossing the bottom threshold: regime 4 then regime 5
    have hne : si ≠ so := ne_of_lt (by linarith [hsi.2, hso.1])
    have hguard : ¬ so < 1/10 := not_lt.2 (by linarith)
    have hnd : ¬ ((so : EScale) < (si : EScale)) :=
      not_lt.2 (WithTop.coe_le_coe.2 (by linarith))
    have hu : (si : EScale) < (so : EScale) := WithTop.coe_lt_coe.2 (by linarith)
    have hsk3 : 3 < 6 ∧ thresholds par.mc par.mb par.mt 4 ≤ (si : EScale) :=
      ⟨by omega, by rw [thr4]; exact WithTop.coe_le_coe.2 hsi.1.le⟩
    have hns4 : ¬ (4 < 6 ∧ thresholds par.mc par.mb par.mt 5 ≤ (si : EScale)) := by
      rw [thr5]
      exact fun h => absurd h.2 (not_le.2 (WithTop.coe_lt_coe.2 hsi.2))
    have hst4 : thresholds par.mc par.mb par.mt 5 < ((so : ℚ) : EScale) := by
      rw [thr5]; exact WithTop.coe_lt_coe.2 hso.1
    have hns5 : ¬ (5 < 6 ∧ thresholds par.mc par.mb par.mt 6 ≤ (si : EScale)) := by
      rw [thr6]
      exact fun h => absurd h.2 (not_le.2 (WithTop.coe_lt_coe.2 (by linarith [hsi.2])))
    have hter5 : min (thresholds par.mc par.mb par.mt 6) ((so : ℚ) : EScale) =
        ((so : ℚ) : EScale) := by
      rw [thr6]; exact min_eq_right (WithTop.coe_le_coe.2 hso.2.le)
    obtain ⟨v, hv⟩ := hT x 4 (si : EScale) (thresholds par.mc par.mb par.mt 5)
    refine ⟨v, hv, ?_⟩
    simp only [rg_evolve_sm, if_neg hne, if_neg hguard, _rg_evolve_sm,
      if_neg hnd, if_pos hu]
    rw [upRun_skip hsk3, upRun_step hns4 hst4]
    simp only [Nat.reduceAdd]
    rw [hv]
    dsimp only
    rw [upRun_term hns5 hter5]
    cases hI : integ v 5 (thresholds par.mc par.mb par.mt 4) ((so : ℚ) : EScale) <;>
      simp [RunOut.toEv, evOutOfExcept]
  · -- crossing the top threshold: regime 5 then regime 6
    have hne : si ≠ so := ne_of_lt (by linarith [hsi.2, hso])
    have hguard : ¬ so < 1/10 := not_lt.2 (by linarith)
    have hnd : ¬ ((so : EScale) < (si : EScale)) :=
      not_lt.2 (WithTop.coe_le_coe.2 (by linarith))
    have hu : (si : EScale) < (so : EScale) := WithTop.coe_lt_coe.2 (by linarith)
    have hsk3 : 3 < 6 ∧ thresholds par.mc par.mb par.mt 4 ≤ (si : EScale) :=
      ⟨by omega, by rw [thr4]; exact WithTop.coe_le_coe.2 (by linarith [hsi.1])⟩
    have hsk4 : 4 < 6 ∧ thresholds par.mc par.mb par.mt 5 ≤ (si : EScale) :=
      ⟨by omega, by rw [thr5]; exact WithTop.coe_le_coe.2 hsi.1.le⟩
    have hns5 : ¬ (5 < 6 ∧ thresholds par.mc par.mb par.mt 6 ≤ (si : EScale)) := by
      rw [thr6]
      exact fun h => absurd h.2 (not_le.2 (WithTop.coe_lt_coe.2 hsi.2))
    have hst5 : thresholds par.mc par.mb par.mt 6 < ((so : ℚ) : EScale) := by
      rw [thr6]; exact WithTop.coe_lt_coe.2 hso
    have hns6 : ¬ (6 < 6 ∧ thresholds par.mc par.mb par.mt 7 ≤ (si : EScale)) :=
      fun h => absurd h.1 (lt_irrefl 6)
    have hter6 : min (thresholds par.mc par.mb par.mt 7) ((so : ℚ) : EScale) =
        ((so : ℚ) : EScale) := by
      rw [thr7]; exact min_eq_right le_top
    obtain ⟨v, hv⟩ := hT x 5 (si : EScale) (thresholds par.mc par.mb par.mt 6)
    refine ⟨v, hv, ?_⟩
    simp only [rg_evolve_sm, if_neg hne, if_neg hguard, _rg_evolve_sm,
      if_neg hnd, if_pos hu]
    rw [upRun_skip hsk3, upRun_skip hsk4, upRun_step hns5 hst5]
    simp only [Nat.reduceAdd]
    rw [hv]
    dsimp only
    rw [upRun_term hns6 hter6]
    cases hI : integ v 6 (thresholds par.mc par.mb par.mt 5) ((so : ℚ) : EScale) <;>
      simp [RunOut.toEv, evOutOfExcept]

/-- C5: with well-formed thresholds, an evolution whose two scales lie
strictly between the same two adjacent thresholds invokes the segment
integrator exactly once (with that band's regime), and an upward
evolution from a scale just below one regime-change threshold (charm,
bottom or top) to a scale just above it passes through exactly one
regime change, invoking the segment integrator exactly twice (regimes
`k-1` then `k`). -/
theorem C5_segment_counts {V E : Type} (integ : Integ V E) (x : V) (par : Par)
    (hwf : WellFormed par) :
    (∀ k si so, (k = 3 ∨ k = 4 ∨ k = 5 ∨ k = 6) → InBand par k si →
      InBand par k so → si ≠ so →
      (rg_evolve_sm integ x par si so).2.map Seg.nf = [k]) ∧
    (∀ k si so, (k = 4 ∨ k = 5 ∨ k = 6) → InBand par (k - 1) si →
      InBand par k so → IntegTotal integ →
      (rg_evolve_sm integ x par si so).2.map Seg.nf = [k - 1, k]) := by
  constructor
  · intro k si so hk hsi hso hne
    rw [sameBand_run integ par k hk hwf si so hsi hso hne x]
    rfl
  · intro k si so hk hsi hso hT
    obtain ⟨v, hv, hrun⟩ := crossBand_run integ par k hk hwf si so hsi hso hT x
    rw [hrun]
    rfl

/-- Witness for the hypotheses of `C5_segment_counts` at concrete
inputs: a same-band run inside the regime-5 band and an upward run
crossing the bottom threshold. -/
theorem C5_segment_counts_witness :
    WellFormed ⟨127/100, 209/50, 173⟩ ∧
    (rg_evolve_sm okInteg (0 : ℚ) ⟨127/100, 209/50, 173⟩ 10 80).2.map Seg.nf = [5] ∧
    (rg_evolve_sm okInteg (0 : ℚ) ⟨127/100, 209/50, 173⟩ 2 10).2.map Seg.nf = [4, 5] := by
  have hwf : WellFormed (⟨127/100, 209/50, 173⟩ : Par) := by constructor <;> norm_num
  refine ⟨hwf, ?_, ?_⟩
  · exact (C5_segment_counts okInteg 0 ⟨127/100, 209/50, 173⟩ hwf).1 5 10 80 (by omega)
      (by
        simp only [InBand, Nat.reduceAdd, thr5, thr6, WithTop.coe_lt_coe]
        norm_num)
      (by
        simp only [InBand, Nat.reduceAdd, thr5, thr6, WithTop.coe_lt_coe]
        norm_num)
      (by norm_num)
  · exact (C5_segment_counts okInteg 0 ⟨127/100, 209/50, 173⟩ hwf).2 5 2 10 (by omega)
      (by
        simp only [InBand, Nat.reduceAdd, Nat.reduceSub, thr4, thr5, WithTop.coe_lt_coe]
        norm_num)
      (by
        simp only [InBand, Nat.reduceAdd, thr5, thr6, WithTop.coe_lt_coe]
        norm_num)
      (fun y nf a b => ⟨y + 1, rfl⟩)

/-- Sequencing of wrapper outcomes: feed a returned vector into a second
evolution, propagating any error outcome unchanged. -/
def EvOut.bindV {V E : Type} : EvOut V E → (V → EvOut V E) → EvOut V E
  | .value v, f => f v
  | .domainError, _ => .domainError
  | .nameError, _ => .nameError
  | .integError e, _ => .integError e

/-- C9: path invariance within a band.  If the segment integrator
satisfies the two-segment composition law (as the exact ODE flow does),
then for scales `A`, `C` strictly inside the same regime band and any
`B` strictly between them, evolving directly from `A` to `C` equals
evolving from `A` to `B` and then feeding the result into an evolution
from `B` to `C`, with the same thresholds and right-hand side. -/
theorem C9_path_invariance {V E : Type} (integ : Integ V E)
    (hcomp : ∀ (y : V) (nf : ℕ) (a b c : EScale),
      (integ y nf a b).bind (fun z => integ z nf b c) = integ y nf a c)
    (x : V) (par : Par) (k : ℕ) (hk : k = 3 ∨ k = 4 ∨ k = 5 ∨ k = 6)
    (hwf : WellFormed par) (A B C : ℚ) (hA : InBand par k A) (hC : InBand par k C)
    (hB : (A < B ∧ B < C) ∨ (C < B ∧ B < A)) :
    EvOut.bindV (rg_evolve_sm integ x par A B).1
        (fun v => (rg_evolve_sm integ v par B C).1) =
      (rg_evolve_sm integ x par A C).1 := by
  obtain ⟨hBb, hAB, hBC, hAC⟩ : InBand par k B ∧ A ≠ B ∧ B ≠ C ∧ A ≠ C := by
    rcases hB with ⟨h1, h2⟩ | ⟨h1, h2⟩
    · exact ⟨⟨lt_trans hA.1 (WithTop.coe_lt_coe.2 h1),
          lt_trans (WithTop.coe_lt_coe.2 h2) hC.2⟩,
        ne_of_lt h1, ne_of_lt h2, ne_of_lt (lt_trans h1 h2)⟩
    · exact ⟨⟨lt_trans hC.1 (WithTop.coe_lt_coe.2 h1),
          lt_trans (WithTop.coe_lt_coe.2 h2) hA.2⟩,
        ne_of_gt h2, ne_of_gt h1, ne_of_gt (lt_trans h1 h2)⟩
  rw [sameBand_run integ par k hk hwf A B hA hBb hAB x,
    sameBand_run integ par k hk hwf A C hA hC hAC x]
  simp only [sameBand_run integ par k hk hwf B C hBb hC hBC]
  rw [← hcomp x k (A : EScale) (B : EScale) (C : EScale)]
  cases hI : integ x k (A : EScale) (B : EScale) <;>
    simp [Except.bind, EvOut.bindV, evOutOfExcept]

/-- Witness for the hypotheses of `C9_path_invariance`: the exact
translation flow `shiftInteg` satisfies the composition law, and the
scales 10, 20, 80 lie inside the regime-5 band for thresholds
(1.27, 4.18, 173). -/
theorem C9_path_invariance_witness :
    EvOut.bindV (rg_evolve_sm shiftInteg (0 : ℚ) ⟨127/100, 209/50, 173⟩ 10 20).1
        (fun v => (rg_evolve_sm shiftInteg v ⟨127/100, 209/50, 173⟩ 20 80).1) =
      (rg_evolve_sm shiftInteg (0 : ℚ) ⟨127/100, 209/50, 173⟩ 10 80).1 :=
  C9_path_invariance shiftInteg
    (by
      intro y nf a b c
      simp only [shiftInteg, Except.bind]
      exact congrArg Except.ok (by ring))
    0 ⟨127/100, 209/50, 173⟩ 5 (by omega) (by constructor <;> norm_num) 10 20 80
    (by
      simp only [InBand, Nat.reduceAdd, thr5, thr6, WithTop.coe_lt_coe]
      norm_num)
    (by
      simp only [InBand, Nat.reduceAdd, thr5, thr6, WithTop.coe_lt_coe]
      norm_num)
    (Or.inl ⟨by norm_num, by norm_num⟩)

/-- Lookup for key `k` in a cache table (most-recently-used entry first),
with exact key equality — no tolerance, as for `functools.lru_cache`. -/
def lruFind {K A : Type} [DecidableEq K] (k : K) : List (K × A) → Option A
  | [] => none
  | p :: rest => if p.1 = k then some p.2 else lruFind k rest

/-- Remove the entry for key `k` from a cache table (used to move a hit
to the most-recently-used position). -/
def lruErase {K A : Type} [DecidableEq K] (k : K) : List (K × A) → List (K × A)
  | [] => []
  | p :: rest => if p.1 = k then rest else p :: lruErase k rest

/-- Modelled from the spec: one call through the `functools.lru_cache`
wrapper (the Memoization Layer of the design; `lru_cache` itself is
Python standard-library code, not part of this repository's sources) of
capacity `cap` around the pure function `f`.  On a hit the stored value
is returned without recomputation and the entry moves to the
most-recently-used position; on a miss `f` is computed and, when it
returns normally (`cacheable`; Python caches only normal returns, not
raised exceptions), the result is inserted, evicting the
least-recently-used entry when the capacity would be exceeded.  The
boolean records whether `f` was computed, i.e. whether the underlying
driver (and hence the segment integrator) actually ran. -/
def lruCall {K A : Type} [DecidableEq K] (cap : ℕ) (f : K → A) (cacheable : A → Bool)
    (c : List (K × A)) (k : K) : A × List (K × A) × Bool :=
  match lruFind k c with
  | some a => (a, (k, a) :: lruErase k c, false)
  | none =>
    let a := f k
    if cacheable a then (a, ((k, a) :: c).take cap, true) else (a, c, true)

/-- Repeatedly call the memoized function on a list of keys, threading
the cache, and return the final cache table. -/
def lruFill {K A : Type} [DecidableEq K] (cap : ℕ) (f : K → A) (cacheable : A → Bool)
    (ks : List K) (c : List (K × A)) : List (K × A) :=
  ks.foldl (fun c k => (lruCall cap f cacheable c k).2.1) c

/-- Cache consistency: every stored value is the value of the memoized
function at its key. -/
def CacheWF {K A : Type} (f : K → A) (c : List (K × A)) : Prop :=
  ∀ p ∈ c, p.2 = f p.1

/-- A successful lookup comes from an entry of the table. -/
theorem lruFind_mem {K A : Type} [DecidableEq K] (k : K) (a : A) :
    ∀ c : List (K × A), lruFind k c = some a → (k, a) ∈ c := by
  intro c
  induction c with
  | nil => intro h; cases h
  | cons p rest ih =>
    intro h
    rw [lruFind] at h
    by_cases hk : p.1 = k
    · rw [if_pos hk] at h
      injection h with h
      have : p = (k, a) := by
        cases p
        cases hk
        cases h
        rfl
      exact this ▸ List.mem_cons_self p rest
    · rw [if_neg hk] at h
      exact List.mem_cons_of_mem p (ih h)

/-- An unsuccessful lookup means no entry of the table has the key. -/
theorem lruFind_none {K A : Type} [DecidableEq K] (k : K) :
    ∀ c : List (K × A), (∀ p ∈ c, p.1 ≠ k) → lruFind k c = none := by
  intro c
  induction c with
  | nil => intro _; rfl
  | cons p rest ih =>
    intro h
    rw [lruFind, if_neg (h p (List.mem_cons_self p rest))]
    exact ih fun q hq => h q (List.mem_cons_of_mem p hq)

/-- Conversely, a lookup returning `none` excludes the key from the
table. -/
theorem lruFind_none_not_mem {K A : Type} [DecidableEq K] (k : K) :
    ∀ c : List (K × A), lruFind k c = none → ∀ p ∈ c, p.1 ≠ k := by
  intro c
  induction c with
  | nil => intro _ p hp; exact absurd hp (List.not_mem_nil p)
  | cons q rest ih =>
    intro h p hp
    rw [lruFind] at h
    by_cases hk : q.1 = k
    · rw [if_pos hk] at h; cases h
    · rw [if_neg hk] at h
      rcases List.mem_cons.1 hp with rfl | hp'
      · exact hk
      · exact ih h p hp'

/-- Erasure only drops entries. -/
theorem lruErase_subset {K A : Type} [DecidableEq K] (k : K) :
    ∀ (c : List (K × A)) (p : K × A), p ∈ lruErase k c → p ∈ c := by
  intro c
  induction c with
  | nil => intro p hp; exact absurd hp (List.not_mem_nil p)
  | cons q rest ih =>
    intro p hp
    rw [lruErase] at hp
    by_cases hk : q.1 = k
    · rw [if_pos hk] at hp
      exact List.mem_cons_of_mem q hp
    · rw [if_neg hk] at hp
      rcases List.mem_cons.1 hp with rfl | hp'
      · exact List.mem_cons_self p rest
      · exact List.mem_cons_of_mem q (ih p hp')

/-- On a consistent cache, a hit returns the function's value. -/
theorem cacheWF_find {K A : Type} [DecidableEq K] (f : K → A) (c : List (K × A))
    (hwf : CacheWF f c) (k : K) (a : A) (h : lruFind k c = some a) : a = f k := by
  have hm := lruFind_mem k a c h
  exact hwf (k, a) hm

/-- The memoized call always returns the function's value (observational
equality of the memoized and unmemoized functions on consistent
caches). -/
theorem lruCall_val {K A : Type} [DecidableEq K] (cap : ℕ) (f : K → A)
    (P : A → Bool) (c : List (K × A)) (k : K) (hwf : CacheWF f c) :
    (lruCall cap f P c k).1 = f k := by
  rw [lruCall]
  cases hF : lruFind k c with
  | some a => exact cacheWF_find f c hwf k a hF
  | none =>
    by_cases hP : P (f k)
    · simp [hP]
    · simp [hP]

/-- The memoized call preserves cache consistency. -/
theorem lruCall_wf {K A : Type} [DecidableEq K] (cap : ℕ) (f : K → A)
    (P : A → Bool) (c : List (K × A)) (k : K) (hwf : CacheWF f c) :
    CacheWF f (lruCall cap f P c k).2.1 := by
  rw [lruCall]
  cases hF : lruFind k c with
  | some a =>
    intro p hp
    rcases List.mem_cons.1 hp with rfl | hp'
    · exact cacheWF_find f c hwf k a hF
    · exact hwf p (lruErase_subset k c p hp')
  | none =>
    by_cases hP : P (f k)
    · simp only [hP, if_true]
      intro p hp
      have hp2 := List.take_subset cap _ hp
      rcases List.mem_cons.1 hp2 with rfl | hp'
      · rfl
      · exact hwf p hp'
    · simp only [hP, if_false]
      exact hwf

/-- After a memoized call whose result is cacheable, the key's entry sits
at the most-recently-used position with the function's value. -/
theorem lruCall_front_after {K A : Type} [DecidableEq K] (cap : ℕ) (f : K → A)
    (P : A → Bool) (c : List (K × A)) (k : K) (hwf : CacheWF f c)
    (hP : P (f k) = true) (hcap : 1 ≤ cap) :
    ∃ rest, (lruCall cap f P c k).2.1 = (k, f k) :: rest := by
  rw [lruCall]
  cases hF : lruFind k c with
  | some a =>
    have := cacheWF_find f c hwf k a hF
    exact ⟨lruErase k c, by rw [this]⟩
  | none =>
    obtain ⟨m, rfl⟩ := Nat.exists_eq_add_of_le hcap
    simp only [hP, if_true]
    exact ⟨c.take m, by rw [Nat.add_comm, List.take_succ_cons]⟩

/-- A call on a cache whose most-recently-used entry already stores the
key is a pure hit: the stored value is returned, the cache is unchanged,
and nothing is computed. -/
theorem lruCall_front_hit {K A : Type} [DecidableEq K] (cap : ℕ) (f : K → A)
    (P : A → Bool) (rest : List (K × A)) (k : K) :
    lruCall cap f P ((k, f k) :: rest) k = (f k, (k, f k) :: rest, false) := by
  rw [lruCall]
  rw [show lruFind k ((k, f k) :: rest) = some (f k) from by rw [lruFind, if_pos rfl]]
  rw [show lruErase k ((k, f k) :: rest) = rest from by rw [lruErase, if_pos rfl]]

/-- Truncating an already-truncated right operand of an append does not
change a truncated append. -/
theorem take_append_take {α : Type} (L M : List α) (n : ℕ) :
    (L ++ M.take n).take n = (L ++ M).take n := by
  rw [List.take_append_eq_append_take, List.take_append_eq_append_take, List.take_take]
  have hmin : min (n - L.length) n = n - L.length := by omega
  rw [hmin]

/-- Shape of the cache after a run of distinct, fresh, cacheable misses:
the most recent `cap` computed entries, most recent first. -/
theorem lruFill_shape {K A : Type} [DecidableEq K] (cap : ℕ) (f : K → A)
    (P : A → Bool) :
    ∀ (ks : List K) (c : List (K × A)), c.length ≤ cap →
      (∀ k ∈ ks, lruFind k c = none) → ks.Nodup → (∀ k ∈ ks, P (f k) = true) →
      lruFill cap f P ks c =
        ((ks.reverse.map (fun k => (k, f k))) ++ c).take cap := by
  intro ks
  induction ks with
  | nil =>
    intro c hlen _ _ _
    simp [lruFill, List.take_of_length_le hlen]
  | cons k0 ks ih =>
    intro c hlen hfresh hnd hP
    have hF : lruFind k0 c = none := hfresh k0 (List.mem_cons_self k0 ks)
    have hP0 : P (f k0) = true := hP k0 (List.mem_cons_self k0 ks)
    have hstep : (lruCall cap f P c k0).2.1 = ((k0, f k0) :: c).take cap := by
      rw [lruCall, hF]
      simp only [hP0, if_true]
    have hfill : lruFill cap f P (k0 :: ks) c =
        lruFill cap f P ks (((k0, f k0) :: c).take cap) := by
      rw [lruFill, List.foldl_cons, hstep]; rfl
    have hlen' : (((k0, f k0) :: c).take cap).length ≤ cap := by
      rw [List.length_take]; omega
    have hfresh' : ∀ k ∈ ks, lruFind k (((k0, f k0) :: c).take cap) = none := by
      intro k hk
      apply lruFind_none
      intro p hp
      have hp2 := List.take_subset cap _ hp
      rcases List.mem_cons.1 hp2 with rfl | hp3
      · intro hEq
        have hkk : k0 = k := hEq
        exact (List.nodup_cons.1 hnd).1 (hkk ▸ hk)
      · exact lruFind_none_not_mem k c (hfresh k (List.mem_cons_of_mem k0 hk)) p hp3
    have hnd' := (List.nodup_cons.1 hnd).2
    have hP' : ∀ k ∈ ks, P (f k) = true := fun k hk => hP k (List.mem_cons_of_mem k0 hk)
    rw [hfill, ih _ hlen' hfresh' hnd' hP', take_append_take]
    congr 1
    rw [List.reverse_cons, List.map_append]
    simp

/-- Normal-return test for a driver outcome: `loopReturn` and the
assigned fall-through return a value; the `NameError` fall-through and a
propagated integration error raise, so `lru_cache` does not store
them. -/
def RunOut.isReturn {V E : Type} : RunOut V E → Bool
  | .loopReturn _ => true
  | .fallback (some _) => true
  | .fallback none => false
  | .err _ => false

/-- Cache key of the memoized driver `_rg_evolve_sm`: the exact tuple
`(initial_condition, mc, mb, mt, derivative_nf, scale_in, scale_out)`,
with the right-hand-side selector identified by an abstract identity
`deriv : D`. -/
structure RgKey (V D : Type) where
  initial : V
  mc : ℚ
  mb : ℚ
  mt : ℚ
  deriv : D
  scale_in : ℚ
  scale_out : ℚ
  deriving DecidableEq

/-- Unmemoized computation performed on a cache miss: run the driver on
the key's components, with the right-hand-side selector looked up by its
identity. -/
def rgCompute {V D E : Type} (fam : D → Integ V E) (key : RgKey V D) :
    RunOut V E × List (Seg V) :=
  _rg_evolve_sm (fam key.deriv) key.initial key.mc key.mb key.mt
    key.scale_in key.scale_out

/-- A driver outcome is cacheable exactly when the call returns
normally. -/
def rgCacheable {V E : Type} (r : RunOut V E × List (Seg V)) : Bool :=
  r.1.isReturn

/-- Modelled from the spec: the `@lru_cache(maxsize=32)`-decorated
driver `_rg_evolve_sm` (the Memoization Layer; the decorator's
capacity-32 least-recently-used table is standard-library behavior, not
code of this repository).  Takes the current cache table and the key,
and returns the result, the new table, and whether the driver was
recomputed. -/
def _rg_evolve_sm_memo {V D E : Type} [DecidableEq V] [DecidableEq D]
    (fam : D → Integ V E) (c : List (RgKey V D × (RunOut V E × List (Seg V))))
    (k : RgKey V D) :
    (RunOut V E × List (Seg V)) × List (RgKey V D × (RunOut V E × List (Seg V))) × Bool :=
  lruCall 32 (rgCompute fam) rgCacheable c k

/-- C6: the memoized driver is keyed by the exact argument tuple with
capacity 32 and least-recently-used eviction.  On a consistent cache it
is observationally equal to the unmemoized driver; a second call with
identical arguments returns the same result and performs no new
computation (hence no new segment-integrator invocation); and inserting
capacity+1 distinct keys evicts exactly the least-recently-used entry
(the first key), keeping the other 32. -/
theorem C6_memoization {V D E : Type} [DecidableEq V] [DecidableEq D]
    (fam : D → Integ V E) (c : List (RgKey V D × (RunOut V E × List (Seg V))))
    (k : RgKey V D) (hwf : CacheWF (rgCompute fam) c)
    (hret : rgCacheable (rgCompute fam k) = true) :
    ((_rg_evolve_sm_memo fam c k).1 =
      _rg_evolve_sm (fam k.deriv) k.initial k.mc k.mb k.mt k.scale_in k.scale_out) ∧
    (_rg_evolve_sm_memo fam (_rg_evolve_sm_memo fam c k).2.1 k =
      (rgCompute fam k, (_rg_evolve_sm_memo fam c k).2.1, false)) ∧
    (∀ (k0 : RgKey V D) (ks : List (RgKey V D)), (k0 :: ks).Nodup →
      ks.length = 32 →
      (∀ k' ∈ k0 :: ks, rgCacheable (rgCompute fam k') = true) →
      (∀ a, (k0, a) ∉ lruFill 32 (rgCompute fam) rgCacheable (k0 :: ks) []) ∧
      (∀ k' ∈ ks, (k', rgCompute fam k') ∈
        lruFill 32 (rgCompute fam) rgCacheable (k0 :: ks) [])) := by
  refine ⟨lruCall_val 32 (rgCompute fam) rgCacheable c k hwf, ?_, ?_⟩
  · obtain ⟨rest, hfront⟩ :=
      lruCall_front_after 32 (rgCompute fam) rgCacheable c k hwf hret (by omega)
    rw [_rg_evolve_sm_memo, _rg_evolve_sm_memo] at *
    rw [hfront, lruCall_front_hit, ← hfront]
  · intro k0 ks hnd hlen hcache
    have hshape := lruFill_shape 32 (rgCompute fam) rgCacheable (k0 :: ks) []
      (by simp) (fun k' _ => rfl) hnd hcache
    have hrev : ((k0 :: ks).reverse.map (fun k' => (k', rgCompute fam k'))) ++
          ([] : List (RgKey V D × (RunOut V E × List (Seg V)))) =
        (ks.reverse.map (fun k' => (k', rgCompute fam k'))) ++
          [(k0, rgCompute fam k0)] := by
      rw [List.append_nil, List.reverse_cons, List.map_append]
      rfl
    have hlenL : (ks.reverse.map (fun k' => (k', rgCompute fam k'))).length = 32 := by
      simp [hlen]
    have hfinal : lruFill 32 (rgCompute fam) rgCacheable (k0 :: ks) [] =
        ks.reverse.map (fun k' => (k', rgCompute fam k')) := by
      rw [hshape, hrev, ← hlenL, List.take_left]
    constructor
    · intro a hmem
      rw [hfinal] at hmem
      obtain ⟨k', hk', hEq⟩ := List.mem_map.1 hmem
      have hkk : k' = k0 := congrArg Prod.fst hEq
      exact (List.nodup_cons.1 hnd).1 (hkk ▸ List.mem_reverse.1 hk')
    · intro k' hk'
      rw [hfinal]
      exact List.mem_map_of_mem _ (List.mem_reverse.2 hk')

/-- Witness for the hypotheses of `C6_memoization`: empty (consistent)
cache and a concrete key whose driver run returns normally (a one-segment
downward run inside the regime-5 band with an always-succeeding
integrator). -/
theorem C6_memoization_witness :
    CacheWF (rgCompute (fun _ : ℕ => okInteg))
      ([] : List (RgKey ℚ ℕ × (RunOut ℚ Unit × List (Seg ℚ)))) ∧
    rgCacheable (rgCompute (fun _ : ℕ => okInteg)
      (⟨0, 127/100, 209/50, 173, 0, 10, 5⟩ : RgKey ℚ ℕ)) = true ∧
    (((_rg_evolve_sm_memo (fun _ : ℕ => okInteg) []
          (⟨0, 127/100, 209/50, 173, 0, 10, 5⟩ : RgKey ℚ ℕ)).1 =
        _rg_evolve_sm okInteg (0 : ℚ) (127/100) (209/50) 173 10 5) ∧
      (_rg_evolve_sm_memo (fun _ : ℕ => okInteg)
          (_rg_evolve_sm_memo (fun _ : ℕ => okInteg) []
            (⟨0, 127/100, 209/50, 173, 0, 10, 5⟩ : RgKey ℚ ℕ)).2.1
          (⟨0, 127/100, 209/50, 173, 0, 10, 5⟩ : RgKey ℚ ℕ) =
        (rgCompute (fun _ : ℕ => okInteg) (⟨0, 127/100, 209/50, 173, 0, 10, 5⟩ : RgKey ℚ ℕ),
         (_rg_evolve_sm_memo (fun _ : ℕ => okInteg) []
           (⟨0, 127/100, 209/50, 173, 0, 10, 5⟩ : RgKey ℚ ℕ)).2.1,
         false)) ∧
      (∀ (k0 : RgKey ℚ ℕ) (ks : List (RgKey ℚ ℕ)), (k0 :: ks).Nodup →
        ks.length = 32 →
        (∀ k' ∈ k0 :: ks, rgCacheable (rgCompute (fun _ : ℕ => okInteg) k') = true) →
        (∀ a, (k0, a) ∉
          lruFill 32 (rgCompute (fun _ : ℕ => okInteg)) rgCacheable (k0 :: ks) []) ∧
        (∀ k' ∈ ks, (k', rgCompute (fun _ : ℕ => okInteg) k') ∈
          lruFill 32 (rgCompute (fun _ : ℕ => okInteg)) rgCacheable (k0 :: ks) []))) := by
  have hwf0 : CacheWF (rgCompute (fun _ : ℕ => okInteg))
      ([] : List (RgKey ℚ ℕ × (RunOut ℚ Unit × List (Seg ℚ)))) :=
    fun p hp => absurd hp (List.not_mem_nil p)
  have hrun : _rg_evolve_sm okInteg (0 : ℚ) (127/100) (209/50) 173 10 5 =
      (RunOut.loopReturn 1, [⟨5, ((10 : ℚ) : EScale), ((5 : ℚ) : EScale), 0⟩]) := by
    have hd : ((5 : ℚ) : EScale) < ((10 : ℚ) : EScale) :=
      WithTop.coe_lt_coe.2 (by norm_num)
    have hs6 : ((10 : ℚ) : EScale) ≤ thresholds (127/100) (209/50) 173 6 := by
      rw [thr6]; exact WithTop.coe_le_coe.2 (by norm_num)
    have hns : ¬ ((10 : ℚ) : EScale) ≤ thresholds (127/100) (209/50) 173 5 := by
      rw [thr5]; exact not_le.2 (WithTop.coe_lt_coe.2 (by norm_num))
    have hter : max (thresholds (127/100) (209/50) 173 5) ((5 : ℚ) : EScale) =
        ((5 : ℚ) : EScale) := by
      rw [thr5]; exact max_eq_right (WithTop.coe_le_coe.2 (by norm_num))
    simp only [_rg_evolve_sm, if_pos hd]
    rw [downRun_skip hs6, downRun_term hns hter]
    simp only [okInteg]
    norm_num
  have hret0 : rgCacheable (rgCompute (fun _ : ℕ => okInteg)
      (⟨0, 127/100, 209/50, 173, 0, 10, 5⟩ : RgKey ℚ ℕ)) = true := by
    simp only [rgCompute]
    rw [hrun]
    rfl
  exact ⟨hwf0, hret0, C6_memoization (fun _ : ℕ => okInteg) [] _ hwf0 hret0⟩
